import Mathlib

/-!
# A verification model of the jaldis RESP server core

This file gives a shallow embedding, in Lean 4, of the core of a small
Redis-protocol (RESP v2) in-memory key-value server written in C++:

* the incremental RESP parser (`resp/parser.cpp`, `resp/handler.cpp`) and the
  serializer (`resp/serializer.hpp`), modelled over `List Char` (one `Char`
  per input byte);
* the storage engine (`storage.hpp` / `storage.cpp`): an association list of
  key/entry pairs standing for the `std::unordered_map` (whose keys are
  unique by construction), with lazy expiration, TTL queries and the bounded
  probabilistic sweep;
* all twenty command handlers of `commands.hpp` and the registry dispatch of
  `command_handler.hpp`.

Machine integers (`int`) are modelled as `Int` together with explicit range
checks exactly where the source performs a fallible conversion
(`std::from_chars`), and as exact integers elsewhere.  `std::pmr` arenas only
affect allocation, never values, and are dropped.  Each definition mirrors one
source function and is named after it.
-/

namespace Jaldis

/-! ## Bytes, CRLF search and decimal conversions -/

/-- The position of the first occurrence of the two-byte sequence CR LF,
mirroring `std::string_view::find("\r\n")` (`none` for `npos`). -/
def findCRLF : List Char → Option Nat
  | [] => none
  | c :: rest =>
    if c = '\r' ∧ rest.head? = some '\n' then some 0
    else (findCRLF rest).map (· + 1)

/-- The decimal digit character for `n % 10`-style values below ten
(as produced by `std::to_chars`). -/
def digitChar : Nat → Char
  | 0 => '0' | 1 => '1' | 2 => '2' | 3 => '3' | 4 => '4'
  | 5 => '5' | 6 => '6' | 7 => '7' | 8 => '8' | _ => '9'

/-- Canonical decimal digits, most significant first, by repeated division;
the fuel argument only forces structural termination and is always ample. -/
def natToCharsAux : Nat → Nat → List Char
  | 0, _ => []
  | fuel + 1, n =>
    if n < 10 then [digitChar n]
    else natToCharsAux fuel (n / 10) ++ [digitChar (n % 10)]

/-- Canonical decimal digits of a natural number, most significant first,
as emitted by `std::to_chars` inside `detail::AppendInteger`. -/
def natToChars (n : Nat) : List Char := natToCharsAux (n + 1) n

/-- Decimal rendering of a C++ `int` value: a minus sign followed by the
digits of the absolute value for negatives (`std::to_chars` behaviour). -/
def intToChars (i : Int) : List Char :=
  if i < 0 then '-' :: natToChars i.natAbs else natToChars i.toNat

/-- The numeric value of a decimal digit character, `none` on a non-digit. -/
def digitVal (c : Char) : Option Nat :=
  if '0' ≤ c ∧ c ≤ '9' then some (c.toNat - 48) else none

/-- Accumulating decimal parse of a digit string; fails on any non-digit.
Helper for the `std::from_chars` model below. -/
def parseNatAux : List Char → Nat → Option Nat
  | [], acc => some acc
  | c :: rest, acc => (digitVal c).bind fun d => parseNatAux rest (acc * 10 + d)

/-- Parse a non-empty all-digit string as a natural number. -/
def parseNatChars (s : List Char) : Option Nat :=
  if s.isEmpty then none else parseNatAux s 0

/-- Model of `std::from_chars` into a C++ `int` combined with the source's
`ec == errc{} && ptr == end` check: the whole string must be an optional
minus sign followed by at least one digit, and the value must fit in a
32-bit signed integer (overflow makes `from_chars` report an error, which
every caller treats as a parse failure). -/
def fromCharsInt (s : List Char) : Option Int :=
  match s with
  | '-' :: rest =>
    (parseNatChars rest).bind fun n =>
      if (n : Int) ≤ 2 ^ 31 then some (-(n : Int)) else none
  | _ =>
    (parseNatChars s).bind fun n =>
      if (n : Int) ≤ 2 ^ 31 - 1 then some (n : Int) else none

/-! ## RESP wire values (`resp::Type`, `values.hpp`) -/

/-- The RESP wire-value sum `resp::Type`: simple string, error, integer,
bulk string, array (`std::variant<String, Error, Int, BulkString, Array>`). -/
inductive RVal where
  | str (v : List Char)
  | err (v : List Char)
  | int (v : Int)
  | bulk (v : List Char)
  | arr (v : List RVal)
deriving Repr

mutual

/-- Structural equality test on wire values (nested arrays compared
element by element). -/
def RVal.beq : RVal → RVal → Bool
  | .str a, .str b => a = b
  | .err a, .err b => a = b
  | .int a, .int b => a = b
  | .bulk a, .bulk b => a = b
  | .arr a, .arr b => RVal.beqList a b
  | _, _ => false

/-- Elementwise equality test on lists of wire values. -/
def RVal.beqList : List RVal → List RVal → Bool
  | [], [] => true
  | a :: as, b :: bs => RVal.beq a b && RVal.beqList as bs
  | _, _ => false

end

mutual

theorem RVal.beq_iff_eq : ∀ a b : RVal, RVal.beq a b = true ↔ a = b
  | .str a, b => by cases b <;> simp [RVal.beq]
  | .err a, b => by cases b <;> simp [RVal.beq]
  | .int a, b => by cases b <;> simp [RVal.beq]
  | .bulk a, b => by cases b <;> simp [RVal.beq]
  | .arr a, b => by
    cases b <;> simp [RVal.beq]
    exact RVal.beqList_iff_eq a _

theorem RVal.beqList_iff_eq : ∀ a b : List RVal, RVal.beqList a b = true ↔ a = b
  | [], b => by cases b <;> simp [RVal.beqList]
  | a :: as, b => by
    cases b with
    | nil => simp [RVal.beqList]
    | cons b bs =>
      simp only [RVal.beqList, Bool.and_eq_true, List.cons.injEq]
      exact and_congr (RVal.beq_iff_eq a b) (RVal.beqList_iff_eq as bs)

end

instance : DecidableEq RVal := fun a b =>
  decidable_of_iff (RVal.beq a b = true) (RVal.beq_iff_eq a b)

/-! ## Serializer (`TypeSerializer<...>::SerializeTo`, `serializer.hpp`)

Only the byte-appending pass `SerializeTo` is observable; `CalculateSize`
merely pre-reserves the output buffer and is not modelled. -/

mutual

/-- `TypeSerializer<Type>::SerializeTo`: the bytes appended for one wire
value (`+data\r\n`, `-data\r\n`, `:123\r\n`, `$5\r\ndata\r\n`,
`*2\r\n<elem><elem>`). -/
def serializeVal : RVal → List Char
  | .str v => '+' :: (v ++ ['\r', '\n'])
  | .err v => '-' :: (v ++ ['\r', '\n'])
  | .int i => ':' :: (intToChars i ++ ['\r', '\n'])
  | .bulk v => '$' :: (natToChars v.length ++ ['\r', '\n'] ++ v ++ ['\r', '\n'])
  | .arr xs => '*' :: (natToChars xs.length ++ ['\r', '\n'] ++ serializeList xs)

/-- The concatenated serializations of an array's elements, in order. -/
def serializeList : List RVal → List Char
  | [] => []
  | x :: xs => serializeVal x ++ serializeList xs

end

/-! ## Incremental parser (`resp/parser.cpp`, `RespHandler::Feed`)

`RespHandler` holds a `std::variant` of the type dispatcher and the five
per-type sub-parsers; the variant together with each sub-parser's private
state is the state type `PState` below.  `Feed` is modelled as a function
from a state and an input chunk to the successor state and a `ParseResult`.

In the source a `Done` result always carries a value (every sub-parser's
`Done` return fills `ParseResult::value`), so the model merges the `status`
and `value` fields into one `Outcome`. -/

/-- Parser state: `dispatch` is the fresh `TypeDispatcher`; the other
constructors carry the private buffers/state of the active sub-parser.
`arrElems` is `ArrayParser` in `State::ReadingElements`, with the expected
count, the elements parsed so far, and the nested `element_handler_`. -/
inductive PState where
  | dispatch
  | simpleStr (buf : List Char)
  | errStr (buf : List Char)
  | intP (buf : List Char)
  | bulkLen (buf : List Char)
  | bulkData (expected : Nat) (buf : List Char)
  | bulkCRLF (buf : List Char)
  | arrLen (buf : List Char)
  | arrElems (expected : Nat) (elems : List RVal) (child : PState)
deriving DecidableEq, Repr

/-- `ParseStatus` together with the optional value of `ParseResult`: a
`Done` result of a sub-parser always carries its value in the source. -/
inductive Outcome where
  | needMore
  | cancelled
  | done (v : RVal)
deriving DecidableEq, Repr

/-- The `ParseResult` returned by `Feed`: bytes consumed and the outcome. -/
structure FeedResult where
  consumed : Nat
  outcome : Outcome
deriving DecidableEq, Repr

/-- The sub-parser selected by `RespHandler::SwitchParser` for each type
byte (`+ - : $ *`); `none` for an unknown type byte (→ `Cancelled`). -/
def initState (c : Char) : Option PState :=
  if c = '+' then some (.simpleStr [])
  else if c = '-' then some (.errStr [])
  else if c = ':' then some (.intP [])
  else if c = '$' then some (.bulkLen [])
  else if c = '*' then some (.arrLen [])
  else none

/-- `BulkStringParser::Feed` from `State::ReadingCRLF`: verify the
mandatory trailing CRLF after the payload. -/
def bulkFromCRLF (dbuf input : List Char) (acc : Nat) : PState × FeedResult :=
  match input with
  | c1 :: c2 :: _ =>
    if c1 = '\r' ∧ c2 = '\n' then (.bulkCRLF dbuf, ⟨acc + 2, .done (.bulk dbuf)⟩)
    else (.bulkCRLF dbuf, ⟨acc, .cancelled⟩)
  | _ => (.bulkCRLF dbuf, ⟨acc, .needMore⟩)

/-- `BulkStringParser::Feed` from `State::ReadingData`: absorb up to
`expected - buffered` payload bytes, then fall through to the trailing
CRLF check.  (In every reachable `ReadingData` state the buffer is shorter
than `expected`, so the `Nat` subtraction is exact.) -/
def bulkFromData (expected : Nat) (dbuf input : List Char) (acc : Nat) :
    PState × FeedResult :=
  let toRead := min (expected - dbuf.length) input.length
  let dbuf' := dbuf ++ input.take toRead
  if dbuf'.length < expected then (.bulkData expected dbuf', ⟨acc + toRead, .needMore⟩)
  else bulkFromCRLF dbuf' (input.drop toRead) (acc + toRead)

/-- `RespHandler::Feed` (the `TypeDispatcher`-based revision) together with
all sub-parser `Feed`s, as one step function on `PState`, with an explicit
fuel argument for structural termination (the wrapper `Feed` below always
supplies enough fuel; the `fuel = 0` row is never reached then).
`ArrayParser`'s element loop becomes the self-recursive `arrElems` row:
each completed element re-enters the row with the element appended, the
consumed bytes dropped, and the nested handler reset (`Reset()`). -/
def feedF : Nat → PState → List Char → PState × FeedResult
  | 0, st, _ => (st, ⟨0, .needMore⟩)
  | fuel + 1, st, input =>
    match st, input with
    | .dispatch, [] => (.dispatch, ⟨0, .needMore⟩)
    | .dispatch, c :: rest =>
      match initState c with
      | some s0 =>
        let r := feedF fuel s0 rest
        (r.1, ⟨r.2.consumed + 1, r.2.outcome⟩)
      | none => (.dispatch, ⟨0, .cancelled⟩)
    | .simpleStr buf, input =>
      match findCRLF input with
      | none => (.simpleStr (buf ++ input), ⟨input.length, .needMore⟩)
      | some p => (.simpleStr [], ⟨p + 2, .done (.str (buf ++ input.take p))⟩)
    | .errStr buf, input =>
      match findCRLF input with
      | none => (.errStr (buf ++ input), ⟨input.length, .needMore⟩)
      | some p => (.errStr [], ⟨p + 2, .done (.err (buf ++ input.take p))⟩)
    | .intP buf, input =>
      match findCRLF input with
      | none => (.intP (buf ++ input), ⟨input.length, .needMore⟩)
      | some p =>
        let buf' := buf ++ input.take p
        match fromCharsInt buf' with
        | none => (.intP buf', ⟨p + 2, .cancelled⟩)
        | some v => (.intP buf', ⟨p + 2, .done (.int v)⟩)
    | .bulkLen buf, input =>
      match findCRLF input with
      | none => (.bulkLen (buf ++ input), ⟨input.length, .needMore⟩)
      | some p =>
        let buf' := buf ++ input.take p
        match fromCharsInt buf' with
        | none => (.bulkLen buf', ⟨p + 2, .cancelled⟩)
        | some L =>
          if L < 0 then (.bulkLen buf', ⟨p + 2, .cancelled⟩)
          else bulkFromData L.toNat [] (input.drop (p + 2)) (p + 2)
    | .bulkData expected dbuf, input => bulkFromData expected dbuf input 0
    | .bulkCRLF dbuf, input => bulkFromCRLF dbuf input 0
    | .arrLen buf, input =>
      match findCRLF input with
      | none => (.arrLen (buf ++ input), ⟨input.length, .needMore⟩)
      | some p =>
        let buf' := buf ++ input.take p
        match fromCharsInt buf' with
        | none => (.arrLen buf', ⟨p + 2, .cancelled⟩)
        | some L =>
          if L < 0 then (.arrLen buf', ⟨p + 2, .cancelled⟩)
          else if L = 0 then (.arrLen buf', ⟨p + 2, .done (.arr [])⟩)
          else
            let r := feedF fuel (.arrElems L.toNat [] .dispatch) (input.drop (p + 2))
            (r.1, ⟨p + 2 + r.2.consumed, r.2.outcome⟩)
    | .arrElems expected elems child, input =>
      if elems.length < expected then
        match input with
        | [] => (.arrElems expected elems child, ⟨0, .needMore⟩)
        | c :: cs =>
          let r := feedF fuel child (c :: cs)
          match r.2.outcome with
          | .cancelled => (.arrElems expected elems r.1, ⟨r.2.consumed, .cancelled⟩)
          | .needMore => (.arrElems expected elems r.1, ⟨r.2.consumed, .needMore⟩)
          | .done v =>
            let r' := feedF fuel (.arrElems expected (elems ++ [v]) .dispatch)
              ((c :: cs).drop r.2.consumed)
            (r'.1, ⟨r.2.consumed + r'.2.consumed, r'.2.outcome⟩)
      else (.arrElems expected elems child, ⟨0, .done (.arr elems)⟩)

/-- Pending work in a parser state: one unit per array nesting level plus
one per still-missing array element.  Used only to size the fuel of `Feed`. -/
def pendingW : PState → Nat
  | .arrElems expected elems child => pendingW child + (expected - elems.length) + 1
  | _ => 0

/-- `RespHandler::Feed`: one call of the handler on an input chunk.  The
fuel `2 * input.length + pendingW st + 1` strictly dominates the recursion
depth of `feedF` (every recursive call decreases
`2 * |input| + pendingW st + 1` by at least one), so the fuel-exhausted
row of `feedF` is unreachable from here. -/
def Feed (st : PState) (input : List Char) : PState × FeedResult :=
  feedF (2 * input.length + pendingW st + 1) st input

/-- `RespHandler::Reset`: back to the initial dispatch state. -/
def Reset : PState := .dispatch

/-! ## Facts about CRLF search and decimal conversion -/

theorem findCRLF_append_crlf (s t : List Char) (h : findCRLF s = none) :
    findCRLF (s ++ '\r' :: '\n' :: t) = some s.length := by
  induction s with
  | nil => simp [findCRLF]
  | cons c s ih =>
    simp only [findCRLF] at h
    by_cases hc : c = '\r' ∧ s.head? = some '\n'
    · simp [hc] at h
    · rw [if_neg hc] at h
      have hs : findCRLF s = none := by
        cases hfs : findCRLF s <;> simp [hfs] at h ⊢
      have hc2 : ¬(c = '\r' ∧ (s ++ '\r' :: '\n' :: t).head? = some '\n') := by
        cases s with
        | nil => simp
        | cons d s' => simpa using hc
      have hstep : findCRLF (c :: (s ++ '\r' :: '\n' :: t)) =
          if c = '\r' ∧ (s ++ '\r' :: '\n' :: t).head? = some '\n' then some 0
          else (findCRLF (s ++ '\r' :: '\n' :: t)).map (· + 1) := rfl
      rw [List.cons_append, hstep, if_neg hc2, ih hs]
      simp

theorem findCRLF_of_no_cr (s : List Char) (h : ∀ c ∈ s, c ≠ '\r') :
    findCRLF s = none := by
  induction s with
  | nil => rfl
  | cons c s ih =>
    have hc : ¬(c = '\r' ∧ s.head? = some '\n') := by
      intro hx
      exact h c (by simp) hx.1
    simp [findCRLF, if_neg hc, ih (fun d hd => h d (by simp [hd]))]

theorem digitVal_digitChar (m : Nat) (h : m < 10) : digitVal (digitChar m) = some m := by
  interval_cases m <;> rfl

theorem digitChar_isDigit (m : Nat) : '0' ≤ digitChar m ∧ digitChar m ≤ '9' := by
  rcases m with _ | _ | _ | _ | _ | _ | _ | _ | _ | m
  repeat'
    first
    | decide
    | exact ⟨(by decide : ('0' : Char) ≤ '9'), le_refl ('9' : Char)⟩

theorem natToCharsAux_digits (fuel n : Nat) :
    ∀ c ∈ natToCharsAux fuel n, '0' ≤ c ∧ c ≤ '9' := by
  induction fuel generalizing n with
  | zero => simp [natToCharsAux]
  | succ fuel ih =>
    intro c hc
    unfold natToCharsAux at hc
    split at hc
    · simp at hc; subst hc; exact digitChar_isDigit n
    · rcases List.mem_append.mp hc with h | h
      · exact ih _ c h
      · simp at h; subst h; exact digitChar_isDigit (n % 10)

theorem natToCharsAux_ne_nil (fuel n : Nat) (h : n < fuel) :
    natToCharsAux fuel n ≠ [] := by
  rcases fuel with _ | fuel
  · omega
  · unfold natToCharsAux
    split
    · simp
    · simp

theorem parseNatAux_append (a b : List Char) (acc : Nat) :
    parseNatAux (a ++ b) acc =
      (parseNatAux a acc).bind fun v => parseNatAux b v := by
  induction a generalizing acc with
  | nil => simp [parseNatAux]
  | cons c a ih =>
    simp only [List.cons_append, parseNatAux]
    cases digitVal c with
    | none => simp
    | some d => simp [ih]

theorem parseNatAux_natToCharsAux :
    ∀ fuel n, n < fuel → ∀ acc,
      parseNatAux (natToCharsAux fuel n) acc =
        some (acc * 10 ^ (natToCharsAux fuel n).length + n)
  | 0, n, h, acc => by omega
  | fuel + 1, n, h, acc => by
    by_cases hlt : n < 10
    · simp [natToCharsAux, hlt, parseNatAux, digitVal_digitChar n hlt]
    · have hrec : n / 10 < fuel := by
        have h1 : n / 10 < n := Nat.div_lt_self (by omega) (by omega)
        omega
      rw [natToCharsAux, if_neg hlt, parseNatAux_append,
        parseNatAux_natToCharsAux fuel (n / 10) hrec acc]
      have hd := digitVal_digitChar (n % 10) (Nat.mod_lt n (by omega))
      simp only [Option.some_bind, parseNatAux, hd, List.length_append,
        List.length_singleton, Option.some.injEq]
      have hmod := Nat.div_add_mod n 10
      rw [pow_succ]
      ring_nf
      omega

theorem parseNatChars_natToChars (n : Nat) :
    parseNatChars (natToChars n) = some n := by
  unfold parseNatChars natToChars
  rw [if_neg (by simpa using natToCharsAux_ne_nil (n + 1) n (by omega))]
  simpa using parseNatAux_natToCharsAux (n + 1) n (by omega) 0

theorem natToChars_head_digit (n : Nat) :
    ∃ c cs, natToChars n = c :: cs ∧ '0' ≤ c ∧ c ≤ '9' := by
  cases h : natToChars n with
  | nil => exact absurd h (natToCharsAux_ne_nil (n + 1) n (by omega))
  | cons c cs =>
    refine ⟨c, cs, rfl, ?_⟩
    have hd := natToCharsAux_digits (n + 1) n c
    rw [natToChars] at h
    exact hd (by simp [h])

theorem fromCharsInt_natToChars (n : Nat) (h : (n : Int) ≤ 2 ^ 31 - 1) :
    fromCharsInt (natToChars n) = some (n : Int) := by
  obtain ⟨c, cs, hc, h0, h9⟩ := natToChars_head_digit n
  have hne : c ≠ '-' := by
    intro he; subst he; exact absurd h0 (by decide)
  rw [fromCharsInt.eq_def, hc]
  split
  · next rest heq =>
    injection heq with h1 h2
    exact absurd h1 hne
  · rw [← hc, parseNatChars_natToChars]
    show (if ((n : Nat) : Int) ≤ 2 ^ 31 - 1 then some ((n : Nat) : Int) else none) =
      some (n : Int)
    rw [if_pos h]

theorem fromCharsInt_intToChars (i : Int) (hlo : -(2 ^ 31) ≤ i) (hhi : i < 2 ^ 31) :
    fromCharsInt (intToChars i) = some i := by
  unfold intToChars
  split
  · next hneg =>
    have hstep : fromCharsInt ('-' :: natToChars i.natAbs) =
        (parseNatChars (natToChars i.natAbs)).bind fun n =>
          if (n : Int) ≤ 2 ^ 31 then some (-(n : Int)) else none := rfl
    rw [hstep, parseNatChars_natToChars]
    have h1 : ((i.natAbs : Nat) : Int) ≤ 2 ^ 31 := by omega
    have h2 : -((i.natAbs : Nat) : Int) = i := by omega
    show (if ((i.natAbs : Nat) : Int) ≤ 2 ^ 31 then some (-((i.natAbs : Nat) : Int)) else none) =
      some i
    rw [if_pos h1, h2]
  · next hpos =>
    have h2 : ((i.toNat : Nat) : Int) = i := by omega
    rw [fromCharsInt_natToChars _ (by omega), h2]

theorem intToChars_no_cr (i : Int) : ∀ c ∈ intToChars i, c ≠ '\r' := by
  intro c hc
  unfold intToChars at hc
  split at hc
  · rcases List.mem_cons.mp hc with rfl | hc'
    · decide
    · have hd := natToCharsAux_digits (i.natAbs + 1) i.natAbs c
        (by simpa [natToChars] using hc')
      rintro rfl
      revert hd; decide
  · have hd := natToCharsAux_digits (i.toNat + 1) i.toNat c
      (by simpa [natToChars] using hc)
    rintro rfl
    revert hd; decide

theorem natToChars_no_cr (n : Nat) : ∀ c ∈ natToChars n, c ≠ '\r' := by
  intro c hc
  have := natToCharsAux_digits (n + 1) n c (by simpa [natToChars] using hc)
  rintro rfl
  revert this; decide

/-! ## Well-formed wire values and the round-trip theorem

`wf` captures exactly the constructibility constraints of the source's
`resp::Type` (§3.1 of the spec): simple strings and errors carry no CRLF
(the protocol forbids CR/LF inside `+`/`-` payloads), integers fit the
C++ `int` used by `resp::Int`, and every length fits the C++ `int` used by
the parsers' `expected_length_`/`expected_count_`. -/

mutual

/-- A wire value as the source can represent and frame it. -/
def wf : RVal → Bool
  | .str v => (findCRLF v).isNone
  | .err v => (findCRLF v).isNone
  | .int i => decide (-(2 ^ 31) ≤ i) && decide (i < 2 ^ 31)
  | .bulk v => decide ((v.length : Int) < 2 ^ 31)
  | .arr xs => decide ((xs.length : Int) < 2 ^ 31) && wfList xs

/-- All elements of an array are well formed. -/
def wfList : List RVal → Bool
  | [] => true
  | x :: xs => wf x && wfList xs

end

mutual

/-- Fuel sufficient for `feedF` to parse one serialized value (see
`costVal_le`); bookkeeping for the fixed fuel of `Feed`. -/
def costVal : RVal → Nat
  | .arr xs => 3 + costList xs
  | _ => 2

/-- Fuel sufficient for `feedF` to parse a serialized element list. -/
def costList : List RVal → Nat
  | [] => 0
  | x :: xs => 1 + costVal x + costList xs

end

theorem wf_str (v : List Char) : wf (.str v) = (findCRLF v).isNone := rfl
theorem wf_err (v : List Char) : wf (.err v) = (findCRLF v).isNone := rfl
theorem wf_int (i : Int) : wf (.int i) = (decide (-(2 ^ 31) ≤ i) && decide (i < 2 ^ 31)) := rfl
theorem wf_bulk (v : List Char) : wf (.bulk v) = decide ((v.length : Int) < 2 ^ 31) := rfl
theorem wf_arr (xs : List RVal) :
    wf (.arr xs) = (decide ((xs.length : Int) < 2 ^ 31) && wfList xs) := rfl
theorem wfList_cons (x : RVal) (xs : List RVal) :
    wfList (x :: xs) = (wf x && wfList xs) := rfl

theorem costVal_str (v : List Char) : costVal (.str v) = 2 := rfl
theorem costVal_err (v : List Char) : costVal (.err v) = 2 := rfl
theorem costVal_int (i : Int) : costVal (.int i) = 2 := rfl
theorem costVal_bulk (v : List Char) : costVal (.bulk v) = 2 := rfl
theorem costVal_arr (xs : List RVal) : costVal (.arr xs) = 3 + costList xs := rfl
theorem costList_nil : costList [] = 0 := rfl
theorem costList_cons (x : RVal) (xs : List RVal) :
    costList (x :: xs) = 1 + costVal x + costList xs := rfl

/-- `BulkStringParser` absorbing exactly its payload and trailing CRLF. -/
theorem bulkFromData_exact (v rest : List Char) (acc : Nat) :
    bulkFromData v.length [] (v ++ '\r' :: '\n' :: rest) acc
      = (.bulkCRLF v, ⟨acc + v.length + 2, .done (.bulk v)⟩) := by
  have hmin : min (v.length - List.length ([] : List Char))
      (v ++ '\r' :: '\n' :: rest).length = v.length := by
    simp
  simp only [bulkFromData, hmin, List.nil_append, List.take_left, List.drop_left,
    lt_irrefl, if_false, bulkFromCRLF]
  simp
  try omega

theorem initState_plus : initState '+' = some (.simpleStr []) := rfl
theorem initState_minus : initState '-' = some (.errStr []) := rfl
theorem initState_colon : initState ':' = some (.intP []) := rfl
theorem initState_dollar : initState '$' = some (.bulkLen []) := rfl
theorem initState_star : initState '*' = some (.arrLen []) := rfl

mutual

theorem serializeVal_length_pos : ∀ v : RVal, 0 < (serializeVal v).length
  | .str v => by simp [serializeVal]
  | .err v => by simp [serializeVal]
  | .int i => by simp [serializeVal]
  | .bulk v => by simp [serializeVal]
  | .arr xs => by simp [serializeVal]

end

mutual

theorem costVal_le : ∀ v : RVal, costVal v + 3 ≤ 2 * (serializeVal v).length
  | .str v => by simp [costVal, serializeVal]; omega
  | .err v => by simp [costVal, serializeVal]; omega
  | .int i => by simp [costVal, serializeVal]; omega
  | .bulk v => by simp [costVal, serializeVal]; omega
  | .arr xs => by
    have h := costList_le xs
    simp only [costVal, serializeVal, List.length_cons, List.length_append]
    omega

theorem costList_le : ∀ xs : List RVal, costList xs ≤ 2 * (serializeList xs).length
  | [] => by simp [costList, serializeList]
  | x :: xs => by
    have h1 := costVal_le x
    have h2 := costList_le xs
    simp only [costList, serializeList, List.length_append]
    omega

end

mutual

theorem feedF_serializeVal : ∀ (v : RVal) (fuel : Nat) (rest : List Char),
    wf v = true → costVal v ≤ fuel →
    (feedF fuel .dispatch (serializeVal v ++ rest)).2
      = ⟨(serializeVal v).length, .done v⟩
  | .str v, fuel, rest, hwf, hcost => by
    rw [costVal_str] at hcost
    obtain ⟨f, rfl⟩ : ∃ f, fuel = f + 2 := ⟨fuel - 2, by omega⟩
    have hwf' : findCRLF v = none := by simpa [wf] using hwf
    have hfind := findCRLF_append_crlf v rest hwf'
    have hshape : serializeVal (.str v) ++ rest = '+' :: (v ++ '\r' :: '\n' :: rest) := by
      simp [serializeVal]
    rw [hshape]
    simp only [feedF, initState_plus, hfind, List.take_left]
    simp [serializeVal]
    try omega
  | .err v, fuel, rest, hwf, hcost => by
    rw [costVal_err] at hcost
    obtain ⟨f, rfl⟩ : ∃ f, fuel = f + 2 := ⟨fuel - 2, by omega⟩
    have hwf' : findCRLF v = none := by simpa [wf] using hwf
    have hfind := findCRLF_append_crlf v rest hwf'
    have hshape : serializeVal (.err v) ++ rest = '-' :: (v ++ '\r' :: '\n' :: rest) := by
      simp [serializeVal]
    rw [hshape]
    simp only [feedF, initState_minus, hfind, List.take_left]
    simp [serializeVal]
    try omega
  | .int i, fuel, rest, hwf, hcost => by
    rw [costVal_int] at hcost
    obtain ⟨f, rfl⟩ : ∃ f, fuel = f + 2 := ⟨fuel - 2, by omega⟩
    have hrange : -(2 ^ 31) ≤ i ∧ i < 2 ^ 31 := by simpa [wf] using hwf
    have hnone : findCRLF (intToChars i) = none :=
      findCRLF_of_no_cr _ (intToChars_no_cr i)
    have hfind := findCRLF_append_crlf (intToChars i) rest hnone
    have hparse := fromCharsInt_intToChars i hrange.1 hrange.2
    have hshape : serializeVal (.int i) ++ rest
        = ':' :: (intToChars i ++ '\r' :: '\n' :: rest) := by
      simp [serializeVal]
    rw [hshape]
    simp only [feedF, initState_colon, hfind, List.take_left, List.nil_append, hparse]
    simp [serializeVal]
    try omega
  | .bulk v, fuel, rest, hwf, hcost => by
    rw [costVal_bulk] at hcost
    obtain ⟨f, rfl⟩ : ∃ f, fuel = f + 2 := ⟨fuel - 2, by omega⟩
    have hlen : ((v.length : Nat) : Int) < 2 ^ 31 := by simpa [wf] using hwf
    have hnone : findCRLF (natToChars v.length) = none :=
      findCRLF_of_no_cr _ (natToChars_no_cr v.length)
    have hfind := findCRLF_append_crlf (natToChars v.length)
      (v ++ '\r' :: '\n' :: rest) hnone
    have hparse := fromCharsInt_natToChars v.length (by omega)
    have hshape : serializeVal (.bulk v) ++ rest
        = '$' :: (natToChars v.length ++ '\r' :: '\n' :: (v ++ '\r' :: '\n' :: rest)) := by
      simp [serializeVal]
    rw [hshape]
    simp only [feedF, initState_dollar, hfind, List.take_left, List.nil_append, hparse]
    rw [if_neg (by omega)]
    have hdrop : (natToChars v.length ++ '\r' :: '\n' :: (v ++ '\r' :: '\n' :: rest)).drop
        ((natToChars v.length).length + 2) = v ++ '\r' :: '\n' :: rest := by
      rw [show (natToChars v.length ++ '\r' :: '\n' :: (v ++ '\r' :: '\n' :: rest))
            = (natToChars v.length ++ ['\r', '\n']) ++ (v ++ '\r' :: '\n' :: rest) by simp,
          show (natToChars v.length).length + 2 = (natToChars v.length ++ ['\r', '\n']).length
            by simp]
      exact List.drop_left _ _
    have htoN : (Int.toNat ((v.length : Nat) : Int)) = v.length := by omega
    rw [hdrop, htoN, bulkFromData_exact v rest _]
    simp [serializeVal]
    try omega
  | .arr xs, fuel, rest, hwf, hcost => by
    rw [costVal_arr] at hcost
    obtain ⟨f, rfl⟩ : ∃ f, fuel = f + 2 := ⟨fuel - 2, by omega⟩
    rw [wf_arr, Bool.and_eq_true, decide_eq_true_eq] at hwf
    obtain ⟨hlen, hwfl⟩ := hwf
    have hnone : findCRLF (natToChars xs.length) = none :=
      findCRLF_of_no_cr _ (natToChars_no_cr xs.length)
    have hfind := findCRLF_append_crlf (natToChars xs.length)
      (serializeList xs ++ rest) hnone
    have hparse := fromCharsInt_natToChars xs.length (by omega)
    have hshape : serializeVal (.arr xs) ++ rest
        = '*' :: (natToChars xs.length ++ '\r' :: '\n' :: (serializeList xs ++ rest)) := by
      simp [serializeVal]
    rw [hshape]
    simp only [feedF, initState_star, hfind, List.take_left, List.nil_append, hparse]
    rw [if_neg (by omega)]
    have hdrop : (natToChars xs.length ++ '\r' :: '\n' :: (serializeList xs ++ rest)).drop
        ((natToChars xs.length).length + 2) = serializeList xs ++ rest := by
      rw [show (natToChars xs.length ++ '\r' :: '\n' :: (serializeList xs ++ rest))
            = (natToChars xs.length ++ ['\r', '\n']) ++ (serializeList xs ++ rest) by simp,
          show (natToChars xs.length).length + 2
            = (natToChars xs.length ++ ['\r', '\n']).length by simp]
      exact List.drop_left _ _
    rcases Nat.eq_zero_or_pos xs.length with hz | hpos
    · obtain rfl : xs = [] := List.length_eq_zero.mp hz
      rw [if_pos (by simp)]
      simp [serializeVal, serializeList]
      try omega
    · rw [if_neg (show ¬((xs.length : Nat) : Int) = 0 by omega), hdrop]
      have hcl : costList xs + 1 ≤ f := by omega
      have hrec := feedF_serializeList xs f (Int.toNat ((xs.length : Nat) : Int)) [] rest hwfl
        (by simp) hcl
      rw [hrec]
      simp [serializeVal]
      try omega

theorem feedF_serializeList : ∀ (xs : List RVal) (fuel : Nat)
    (expected : Nat) (elems : List RVal) (rest : List Char),
    wfList xs = true → expected = elems.length + xs.length →
    costList xs + 1 ≤ fuel →
    (feedF fuel (.arrElems expected elems .dispatch) (serializeList xs ++ rest)).2
      = ⟨(serializeList xs).length, .done (.arr (elems ++ xs))⟩
  | [], fuel, expected, elems, rest, hwf, hexp, hcost => by
    obtain ⟨f, rfl⟩ : ∃ f, fuel = f + 1 := ⟨fuel - 1, by omega⟩
    simp only [serializeList, List.nil_append, feedF]
    rw [if_neg (by simp [hexp])]
    simp [serializeList]
  | x :: xs, fuel, expected, elems, rest, hwf, hexp, hcost => by
    rw [costList_cons] at hcost
    obtain ⟨f, rfl⟩ : ∃ f, fuel = f + 1 := ⟨fuel - 1, by omega⟩
    rw [wfList_cons, Bool.and_eq_true] at hwf
    obtain ⟨hwx, hwxs⟩ := hwf
    have hcx : costVal x ≤ f := by omega
    have hcxs : costList xs + 1 ≤ f := by omega
    obtain ⟨c, cs, hx⟩ : ∃ c cs, serializeVal x ++ (serializeList xs ++ rest) = c :: cs := by
      cases hs : serializeVal x with
      | nil => exact absurd hs (by have := serializeVal_length_pos x; intro h; simp [h] at this)
      | cons c cs => exact ⟨c, cs ++ (serializeList xs ++ rest), by simp [hs]⟩
    have hshape : serializeList (x :: xs) ++ rest
        = serializeVal x ++ (serializeList xs ++ rest) := by
      simp [serializeList]
    rw [hshape, hx]
    simp only [feedF]
    rw [if_pos (by simp only [hexp, List.length_cons]; omega)]
    have hchild := feedF_serializeVal x f (serializeList xs ++ rest) hwx hcx
    rw [← hx]
    simp only [hchild, List.drop_left]
    have hrec := feedF_serializeList xs f expected (elems ++ [x]) rest hwxs
      (by simp only [hexp, List.length_append, List.length_cons, List.length_nil]; omega)
      hcxs
    simp only [hrec]
    simp [serializeList]
    try omega

end

/-- **C1** — Parser–serializer round-trip: for every wire value `v` the
source can represent (`wf v`: no CRLF inside simple strings/errors, integers
and lengths within the C++ `int` range; bulk-string bytes are arbitrary,
embedded CRLF included), feeding the bytes of `serializeVal v` to a freshly
reset parser yields a complete (`Done`) value equal to `v`, with `consumed`
equal to the length of the serialized bytes. -/
theorem parse_serialize_roundtrip (v : RVal) (h : wf v = true) :
    (Feed .dispatch (serializeVal v)).2
      = ⟨(serializeVal v).length, .done v⟩ := by
  have hc := costVal_le v
  have hmain := feedF_serializeVal v
    (2 * (serializeVal v).length + pendingW .dispatch + 1) [] h
    (by simp only [pendingW]; omega)
  unfold Feed
  simpa using hmain

/-- Witness for C1 at a nested concrete value whose bulk string embeds CRLF
and whose integer is negative. -/
theorem parse_serialize_roundtrip_witness :
    (Feed .dispatch (serializeVal
        (.arr [.bulk ['a', '\r', '\n', 'b'], .int (-7), .str ['O', 'K'], .arr []]))).2
      = ⟨(serializeVal
            (.arr [.bulk ['a', '\r', '\n', 'b'], .int (-7), .str ['O', 'K'], .arr []])).length,
         .done (.arr [.bulk ['a', '\r', '\n', 'b'], .int (-7), .str ['O', 'K'], .arr []])⟩ :=
  parse_serialize_roundtrip
    (.arr [.bulk ['a', '\r', '\n', 'b'], .int (-7), .str ['O', 'K'], .arr []]) (by decide)

/-- **C2** — Parser chunk-robustness fails on the code: the serialization
`"+a\r\n"` of `SimpleString "a"`, fed whole, yields the value with
`consumed = 4`; but under the partition `["+a\r", "\n"]` (advancing by
`consumed` after each call and resuming on NeedMore) the second call
returns NeedMore with no value — the line parsers search for CRLF only in
the new chunk, so a CRLF split across a chunk boundary is absorbed into the
payload buffer and never terminates the line.  The total consumed is still
`3 + 1 = 4 = |s|`, yet no value is ever produced, contradicting the claimed
equality of results for every partition. -/
theorem feed_chunked_crlf_split_diverges :
    serializeVal (.str ['a']) = '+' :: 'a' :: '\r' :: '\n' :: [] ∧
    (Feed .dispatch ('+' :: 'a' :: '\r' :: '\n' :: [])).2 = ⟨4, .done (.str ['a'])⟩ ∧
    (Feed .dispatch ('+' :: 'a' :: '\r' :: [])).2 = ⟨3, .needMore⟩ ∧
    (Feed (Feed .dispatch ('+' :: 'a' :: '\r' :: [])).1 ('\n' :: [])).2
      = ⟨1, .needMore⟩ := by
  refine ⟨rfl, by decide, by decide, by decide⟩

/-! ## Storage engine (`storage.hpp` / `storage.cpp`)

The backing `std::unordered_map<std::string, Entry, TransparentHash,
std::equal_to<>>` is modelled as an association list with (by the map's own
invariant) unique keys: `mapFind` is `data_.find`, `mapErase` is
`data_.erase(it)` (removing the key's single entry), appending is `emplace`,
and `updateAt` is mutation through the `Entry*`/`T*` returned by a find.
The monotonic clock `Clock::now()` is a `Nat` parameter counting
nanosecond ticks; one instant is used for a whole operation. -/

abbrev Key := List Char

/-- `Storage::Value = std::variant<String, List, Set>`.  The `std::deque`
is a Lean list front-first; the `std::unordered_set` is its contents in
insertion order (uniqueness maintained by the insert model). -/
inductive StoredValue where
  | str (s : List Char)
  | list (l : List (List Char))
  | set (s : List (List Char))
deriving DecidableEq, Repr

/-- `Storage::Entry`: a value and an optional absolute monotonic deadline. -/
structure Entry where
  value : StoredValue
  expiresAt : Option Nat
deriving DecidableEq, Repr

/-- `std::chrono` ticks per second (steady clock at nanosecond resolution). -/
def nsPerSec : Nat := 1000000000

/-- `Entry::Expired(now)`: `expires_at && now >= *expires_at`. -/
def Entry.Expired (e : Entry) (now : Nat) : Bool :=
  match e.expiresAt with
  | none => false
  | some t => t ≤ now

abbrev StorageMap := List (Key × Entry)

/-- `data_.find(key)` (transparent lookup by the key bytes). -/
def mapFind (m : StorageMap) (k : Key) : Option Entry :=
  (m.find? fun p => p.1 == k).map (·.2)

/-- `data_.erase(it)`: remove the (unique) entry of `key`. -/
def mapErase (m : StorageMap) (k : Key) : StorageMap :=
  m.filter fun p => !(p.1 == k)

/-- Mutation of `key`'s entry through the pointer returned by a find. -/
def updateAt (m : StorageMap) (k : Key) (f : Entry → Entry) : StorageMap :=
  m.map fun p => if p.1 == k then (p.1, f p.2) else p

/-- `Storage::FindEntry`: lookup with lazy expiration — an expired entry is
erased on the spot and reported absent. -/
def FindEntry (m : StorageMap) (now : Nat) (k : Key) : StorageMap × Option Entry :=
  match mapFind m k with
  | none => (m, none)
  | some e => if e.Expired now then (mapErase m k, none) else (m, some e)

/-- `Storage::Exists`. -/
def existsKey (m : StorageMap) (now : Nat) (k : Key) : StorageMap × Bool :=
  let r := FindEntry m now k
  (r.1, r.2.isSome)

/-- `Storage::Erase`: plain map erase, **no** expiration check. -/
def eraseKey (m : StorageMap) (k : Key) : StorageMap × Bool :=
  match mapFind m k with
  | none => (m, false)
  | some _ => (mapErase m k, true)

/-- `Storage::Keys`: scan all entries, erasing the expired ones and
collecting the keys of the rest. -/
def keysOp : StorageMap → Nat → StorageMap × List Key
  | [], _ => ([], [])
  | (k, e) :: rest, now =>
    if e.Expired now then keysOp rest now
    else
      let r := keysOp rest now
      ((k, e) :: r.1, k :: r.2)

/-- `Storage::Clear`. -/
def clearMap (_ : StorageMap) : StorageMap := []

/-- `std::get_if<String>` on a stored value. -/
def StoredValue.asStr : StoredValue → Option (List Char)
  | .str s => some s
  | _ => none

/-- `std::get_if<List>` on a stored value. -/
def StoredValue.asList : StoredValue → Option (List (List Char))
  | .list l => some l
  | _ => none

/-- `std::get_if<Set>` on a stored value. -/
def StoredValue.asSet : StoredValue → Option (List (List Char))
  | .set s => some s
  | _ => none

/-- `Storage::Result<T*>` outcome of `Find`/`FindOrCreate`. -/
inductive FindRes (α : Type) where
  | notFound
  | wrongType
  | ok (a : α)
deriving DecidableEq, Repr

/-- `Storage::Find<T>`: lazy-expiring lookup; the value only if present and
of the requested kind (`proj` is the `std::get_if<T>` of that kind). -/
def Find {α : Type} (proj : StoredValue → Option α)
    (m : StorageMap) (now : Nat) (k : Key) : StorageMap × FindRes α :=
  let r := FindEntry m now k
  match r.2 with
  | none => (r.1, .notFound)
  | some e =>
    match proj e.value with
    | none => (r.1, .wrongType)
    | some v => (r.1, .ok v)

/-- `Storage::FindOrCreate<T>`: as `Find`, but on absence a
default-constructed `Entry{T{}, nullopt}` is emplaced and returned
(`none` here is the `WrongType` error; the `Bool` records creation). -/
def FindOrCreate {α : Type} (proj : StoredValue → Option α) (defVal : StoredValue)
    (defProj : α) (m : StorageMap) (now : Nat) (k : Key) :
    StorageMap × Option α :=
  let r := FindEntry m now k
  match r.2 with
  | none => (r.1 ++ [(k, ⟨defVal, none⟩)], some defProj)
  | some e =>
    match proj e.value with
    | none => (r.1, none)
    | some v => (r.1, some v)

/-- `Storage::SetExpiry`: set `expires_at = now + ttl` on an existing
non-expired entry; `false` when absent. -/
def SetExpiry (m : StorageMap) (now : Nat) (k : Key) (ttlSecs : Nat) :
    StorageMap × Bool :=
  let r := FindEntry m now k
  match r.2 with
  | none => (r.1, false)
  | some _ => (updateAt r.1 k fun e => ⟨e.value, some (now + ttlSecs * nsPerSec)⟩, true)

/-- `Storage::GetTtl`: `-2` absent/expired, `-1` no deadline, else the
remaining whole seconds clamped at zero. -/
def GetTtl (m : StorageMap) (now : Nat) (k : Key) : StorageMap × Int :=
  let r := FindEntry m now k
  match r.2 with
  | none => (r.1, -2)
  | some e =>
    match e.expiresAt with
    | none => (r.1, -1)
    | some d => (r.1, max 0 (((d - now) / nsPerSec : Nat) : Int))

/-! ### Association-list map facts -/

theorem mapFind_cons (p : Key × Entry) (m : StorageMap) (k : Key) :
    mapFind (p :: m) k = if p.1 == k then some p.2 else mapFind m k := by
  unfold mapFind
  rw [List.find?]
  cases h : (p.1 == k) <;> simp [h]

theorem mapErase_cons (p : Key × Entry) (m : StorageMap) (k : Key) :
    mapErase (p :: m) k = if p.1 == k then mapErase m k else p :: mapErase m k := by
  unfold mapErase
  rw [List.filter]
  cases h : (p.1 == k) <;> simp [h]

theorem mapFind_mapErase (m : StorageMap) (k k' : Key) :
    mapFind (mapErase m k) k' = if k' = k then none else mapFind m k' := by
  induction m with
  | nil => simp [mapFind, mapErase]
  | cons p m ih =>
    by_cases hpk : p.1 = k
    · rw [mapErase_cons, if_pos (by simp [hpk]), ih, mapFind_cons]
      by_cases hk : k' = k
      · simp [hk]
      · rw [if_neg hk, if_neg hk, if_neg (show ¬(p.1 == k') = true by
          simp only [beq_iff_eq]
          intro he
          exact hk (he.symm.trans hpk))]
    · rw [mapErase_cons, if_neg (by simp [hpk]), mapFind_cons, mapFind_cons, ih]
      by_cases hpk' : p.1 = k'
      · have hk : ¬k' = k := fun he => hpk (hpk'.trans he)
        simp [hpk', hk]
      · have hb : (p.1 == k') = false := by simp [hpk']
        simp [hb]

/-- The two FindEntry outcomes on an absent-or-expired key: reported
absent, and gone from the map afterwards. -/
theorem findEntry_absent (m : StorageMap) (now : Nat) (k : Key)
    (h : mapFind m k = none ∨ ∃ e, mapFind m k = some e ∧ e.Expired now = true) :
    (FindEntry m now k).2 = none ∧ mapFind (FindEntry m now k).1 k = none := by
  unfold FindEntry
  rcases h with h | ⟨e, he, hx⟩
  · simp [h]
  · simp [he, hx, mapFind_mapErase]

theorem findEntry_live (m : StorageMap) (now : Nat) (k : Key) (e : Entry)
    (he : mapFind m k = some e) (hx : e.Expired now = false) :
    FindEntry m now k = (m, some e) := by
  unfold FindEntry
  simp [he, hx]

/-- **C3** — Lazy expiration and the TTL contract: for every key `k`, if
`k` is absent or its entry's deadline has passed, then `Exists` is false,
`Find` of every kind is `NotFound`, `GetTtl` is `-2`, and that very access
removes the entry from the map; a live entry without deadline gives
`GetTtl = -1`; a live entry with deadline `d` gives the remaining whole
seconds `⌊(d − now)/1s⌋` (which equals the source's `max(0, ·)` since it is
non-negative). -/
theorem lazy_expiration_ttl_contract (m : StorageMap) (now : Nat) (k : Key) :
    ((mapFind m k = none ∨ ∃ e, mapFind m k = some e ∧ e.Expired now = true) →
      (existsKey m now k).2 = false ∧ mapFind (existsKey m now k).1 k = none ∧
      (∀ (α : Type) (proj : StoredValue → Option α),
        (Find proj m now k).2 = FindRes.notFound ∧
        mapFind (Find proj m now k).1 k = none) ∧
      (GetTtl m now k).2 = -2 ∧ mapFind (GetTtl m now k).1 k = none) ∧
    (∀ v, mapFind m k = some ⟨v, none⟩ → (GetTtl m now k).2 = -1) ∧
    (∀ v d, mapFind m k = some ⟨v, some d⟩ → now < d →
      (GetTtl m now k).2 = (((d - now) / nsPerSec : Nat) : Int)) := by
  refine ⟨fun h => ?_, fun v hv => ?_, fun v d hv hd => ?_⟩
  · obtain ⟨h2, h1⟩ := findEntry_absent m now k h
    refine ⟨?_, ?_, fun α proj => ⟨?_, ?_⟩, ?_, ?_⟩
    · simp only [existsKey]; rw [h2]; rfl
    · simp only [existsKey]; exact h1
    · simp only [Find]; rw [h2]
    · simp only [Find]; rw [h2]; exact h1
    · simp only [GetTtl]; rw [h2]
    · simp only [GetTtl]; rw [h2]; exact h1
  · have hlive := findEntry_live m now k ⟨v, none⟩ hv rfl
    simp only [GetTtl]
    rw [hlive]
  · have hx : Entry.Expired ⟨v, some d⟩ now = false := by
      simp [Entry.Expired]; omega
    have hlive := findEntry_live m now k ⟨v, some d⟩ hv hx
    simp only [GetTtl]
    rw [hlive]
    exact max_eq_right (Int.natCast_nonneg _)

/-- Witness for C3: an expired entry (deadline 5, now 10) reads as absent
and is erased; a deadline-free entry gives −1; a deadline 3 s + 7 ns ahead
read at 1 s gives 2 s. -/
theorem lazy_expiration_ttl_contract_witness :
    ((existsKey [(['a'], ⟨.str ['v'], some 5⟩)] 10 ['a']).2 = false ∧
      mapFind (existsKey [(['a'], ⟨.str ['v'], some 5⟩)] 10 ['a']).1 ['a'] = none) ∧
    (GetTtl [(['b'], ⟨.str ['v'], none⟩)] 10 ['b']).2 = -1 ∧
    (GetTtl [(['c'], ⟨.list [], some (3 * nsPerSec + 7)⟩)] nsPerSec ['c']).2 = 2 := by
  refine ⟨?_, ?_, ?_⟩
  · have h := (lazy_expiration_ttl_contract [(['a'], ⟨.str ['v'], some 5⟩)] 10 ['a']).1
      (Or.inr ⟨⟨.str ['v'], some 5⟩, by decide, by decide⟩)
    exact ⟨h.1, h.2.1⟩
  · exact (lazy_expiration_ttl_contract [(['b'], ⟨.str ['v'], none⟩)] 10 ['b']).2.1
      (.str ['v']) (by decide)
  · have h := (lazy_expiration_ttl_contract [(['c'], ⟨.list [], some (3 * nsPerSec + 7)⟩)]
      nsPerSec ['c']).2.2 (.list []) (3 * nsPerSec + 7) (by decide) (by decide)
    rw [h]
    decide

/-! ## Command handlers (`commands.hpp`) and the registry
(`command_handler.hpp`)

A handler takes the argument values (the command name already consumed),
the storage map and the current instant, and returns the updated map and
the reply wire value — the `(CommandArgs, Storage&, arena) → resp::Type`
signature with the storage state made explicit. -/

abbrev Handler := List RVal → StorageMap → Nat → StorageMap × RVal

/-- A single-quote character (for building error messages). -/
def sq : Char := '\''

/-- `detail::ErrorWrongType`. -/
def errWrongType : RVal :=
  .err ("WRONGTYPE Operation against a key holding the wrong kind of value".toList)

/-- `detail::ErrorArgCount`. -/
def errArgCount (cmd : List Char) : RVal :=
  .err (("ERR wrong number of arguments for ").toList ++ [sq] ++ cmd ++ [sq]
    ++ (" command").toList)

/-- `detail::ErrorNotBulkString`. -/
def errNotBulkString : RVal := .err ("ERR value is not a bulk string".toList)

/-- `detail::ErrorNotInteger`. -/
def errNotInteger : RVal := .err ("ERR value is not an integer".toList)

/-- `detail::Ok`. -/
def okReply : RVal := .str ("OK".toList)

/-- `detail::Nil`: the source's nil sentinel, a bulk string `(nil)`. -/
def nilReply : RVal := .bulk ("(nil)".toList)

/-- `detail::AsBulkString`. -/
def asBulkString : RVal → Option (List Char)
  | .bulk v => some v
  | _ => none

/-- `GET`: the stored string, nil if absent, WRONGTYPE otherwise. -/
def getCmd : Handler := fun args m now =>
  match args with
  | [a] =>
    match asBulkString a with
    | none => (m, errNotBulkString)
    | some k =>
      let r := Find StoredValue.asStr m now k
      match r.2 with
      | .wrongType => (r.1, errWrongType)
      | .notFound => (r.1, nilReply)
      | .ok s => (r.1, .bulk s)
  | _ => (m, errArgCount ("GET".toList))

/-- `SET`: find-or-create the string entry, then assign the new bytes
through the returned pointer (the deadline field is untouched). -/
def setCmd : Handler := fun args m now =>
  match args with
  | [a, b] =>
    match asBulkString a, asBulkString b with
    | some k, some v =>
      let r := FindOrCreate StoredValue.asStr (.str []) [] m now k
      match r.2 with
      | none => (r.1, errWrongType)
      | some _ => (updateAt r.1 k fun e => ⟨.str v, e.expiresAt⟩, okReply)
    | _, _ => (m, errNotBulkString)
  | _ => (m, errArgCount ("SET".toList))

/-- The `DEL` loop: erase each key, counting successes; a non-bulk
argument aborts with the erasures so far applied. -/
def delLoop : List RVal → StorageMap → Nat → StorageMap × Option Nat
  | [], m, acc => (m, some acc)
  | a :: as, m, acc =>
    match asBulkString a with
    | none => (m, none)
    | some k =>
      let r := eraseKey m k
      delLoop as r.1 (acc + if r.2 then 1 else 0)

/-- `DEL`: the number of keys actually removed. -/
def delCmd : Handler := fun args m _ =>
  match args with
  | [] => (m, errArgCount ("DEL".toList))
  | _ =>
    let r := delLoop args m 0
    match r.2 with
    | none => (r.1, errNotBulkString)
    | some n => (r.1, .int (n : Int))

/-- `PING`: `PONG`, or echo of the single bulk argument. -/
def pingCmd : Handler := fun args m _ =>
  match args with
  | [] => (m, .str ("PONG".toList))
  | [a] =>
    match asBulkString a with
    | none => (m, errNotBulkString)
    | some v => (m, .bulk v)
  | _ => (m, errArgCount ("PING".toList))

/-- `KEYS`: all non-expired keys (sweeping expired ones). -/
def keysCmd : Handler := fun args m now =>
  match args with
  | [] =>
    let r := keysOp m now
    (r.1, .arr (r.2.map fun k => .bulk k))
  | _ => (m, errArgCount ("KEYS".toList))

/-- `FLUSHDB`. -/
def flushdbCmd : Handler := fun args m _ =>
  match args with
  | [] => (clearMap m, okReply)
  | _ => (m, errArgCount ("FLUSHDB".toList))

/-- The `LPUSH`/`RPUSH` loop: push each value (front or back); a non-bulk
argument aborts with the pushes so far applied. -/
def pushLoop (front : Bool) : List RVal → List (List Char) → List (List Char) × Bool
  | [], l => (l, true)
  | a :: as, l =>
    match asBulkString a with
    | none => (l, false)
    | some v => pushLoop front as (if front then v :: l else l ++ [v])

/-- `LPUSH`/`RPUSH` (they differ only in the pushed end): find-or-create
the list, push the values, reply with the new length. -/
def pushCmd (front : Bool) (name : List Char) : Handler := fun args m now =>
  match args with
  | a :: b :: rest =>
    match asBulkString a with
    | none => (m, errNotBulkString)
    | some k =>
      let r := FindOrCreate StoredValue.asList (.list []) [] m now k
      match r.2 with
      | none => (r.1, errWrongType)
      | some l =>
        let p := pushLoop front (b :: rest) l
        let m' := updateAt r.1 k fun e => ⟨.list p.1, e.expiresAt⟩
        if p.2 then (m', .int (p.1.length : Int)) else (m', errNotBulkString)
  | _ => (m, errArgCount name)

def lpushCmd : Handler := pushCmd true ("LPUSH".toList)

def rpushCmd : Handler := pushCmd false ("RPUSH".toList)

/-- The counted `LPOP`/`RPOP` loop: pop up to `count` values while the
list is non-empty, collecting them as bulk strings in pop order. -/
def popLoop (front : Bool) : Nat → List (List Char) → List RVal × List (List Char)
  | 0, l => ([], l)
  | n + 1, l =>
    if l.isEmpty then ([], l)
    else
      let v := if front then l.headD [] else l.getLastD []
      let l' := if front then l.tail else l.dropLast
      let r := popLoop front n l'
      (.bulk v :: r.1, r.2)

/-- The common tail of `LPOP`/`RPOP` after argument validation: `single`
records whether the invocation had no explicit count (`args.size() == 1`). -/
def popExec (front single : Bool) (k : Key) (count : Nat) : StorageMap → Nat → StorageMap × RVal :=
  fun m now =>
  let r := Find StoredValue.asList m now k
  match r.2 with
  | .wrongType => (r.1, errWrongType)
  | .notFound => (r.1, nilReply)
  | .ok l =>
    if count = 1 ∧ single = true then
      if l.isEmpty then (r.1, nilReply)
      else
        let v := if front then l.headD [] else l.getLastD []
        let l' := if front then l.tail else l.dropLast
        (updateAt r.1 k fun e => ⟨.list l', e.expiresAt⟩, .bulk v)
    else
      let p := popLoop front count l
      (updateAt r.1 k fun e => ⟨.list p.2, e.expiresAt⟩, .arr p.1)

/-- `LPOP`/`RPOP` (they differ only in the popped end). -/
def popCmd (front : Bool) (name : List Char) : Handler := fun args m now =>
  match args with
  | [a] =>
    match asBulkString a with
    | none => (m, errNotBulkString)
    | some k => popExec front true k 1 m now
  | [a, c] =>
    match asBulkString a with
    | none => (m, errNotBulkString)
    | some k =>
      match asBulkString c with
      | none => (m, errNotBulkString)
      | some cs =>
        match fromCharsInt cs with
        | none => (m, errNotInteger)
        | some cnt =>
          if cnt < 0 then (m, errNotInteger)
          else popExec front false k cnt.toNat m now
  | _ => (m, errArgCount name)

def lpopCmd : Handler := popCmd true ("LPOP".toList)

def rpopCmd : Handler := popCmd false ("RPOP".toList)

/-- `LLEN`: list length, `0` if absent. -/
def llenCmd : Handler := fun args m now =>
  match args with
  | [a] =>
    match asBulkString a with
    | none => (m, errNotBulkString)
    | some k =>
      let r := Find StoredValue.asList m now k
      match r.2 with
      | .wrongType => (r.1, errWrongType)
      | .notFound => (r.1, .int 0)
      | .ok l => (r.1, .int (l.length : Int))
  | _ => (m, errArgCount ("LLEN".toList))

/-- The `LRANGE` loop `for (i = start; i <= stop; ++i)` as a count of
`stop + 1 - start` indexed reads starting at `start` (every executed read
is in bounds by the clamping of `start` and `stop`). -/
def collectRange (l : List (List Char)) : Int → Nat → List (List Char)
  | _, 0 => []
  | start, n + 1 => l.getD start.toNat [] :: collectRange l (start + 1) n

/-- `LRANGE`: inclusive clamped range with negative indices from the end. -/
def lrangeCmd : Handler := fun args m now =>
  match args with
  | [a, b, c] =>
    match asBulkString a, asBulkString b, asBulkString c with
    | some k, some bs, some cs =>
      match fromCharsInt bs, fromCharsInt cs with
      | some s, some t =>
        let r := Find StoredValue.asList m now k
        match r.2 with
        | .wrongType => (r.1, errWrongType)
        | .notFound => (r.1, .arr [])
        | .ok l =>
          let len : Int := (l.length : Int)
          let start := if s < 0 then max 0 (len + s) else s
          let stop := min (if t < 0 then len + t else t) (len - 1)
          (r.1, .arr ((collectRange l start (stop + 1 - start).toNat).map .bulk))
      | _, _ => (m, errNotInteger)
    | _, _, _ => (m, errNotBulkString)
  | _ => (m, errArgCount ("LRANGE".toList))

/-- The `SADD` loop: `set->insert(member).second` counts fresh members; a
non-bulk argument aborts with the inserts so far applied. -/
def saddLoop : List RVal → List (List Char) → Nat → List (List Char) × Nat × Bool
  | [], s, acc => (s, acc, true)
  | a :: as, s, acc =>
    match asBulkString a with
    | none => (s, acc, false)
    | some v =>
      if s.contains v then saddLoop as s acc
      else saddLoop as (s ++ [v]) (acc + 1)

/-- `SADD`: find-or-create the set; reply with the number newly added. -/
def saddCmd : Handler := fun args m now =>
  match args with
  | a :: b :: rest =>
    match asBulkString a with
    | none => (m, errNotBulkString)
    | some k =>
      let r := FindOrCreate StoredValue.asSet (.set []) [] m now k
      match r.2 with
      | none => (r.1, errWrongType)
      | some s =>
        let p := saddLoop (b :: rest) s 0
        let m' := updateAt r.1 k fun e => ⟨.set p.1, e.expiresAt⟩
        if p.2.2 then (m', .int (p.2.1 : Int)) else (m', errNotBulkString)
  | _ => (m, errArgCount ("SADD".toList))

/-- The `SREM` loop: `set->erase(member)` counts actual removals. -/
def sremLoop : List RVal → List (List Char) → Nat → List (List Char) × Nat × Bool
  | [], s, acc => (s, acc, true)
  | a :: as, s, acc =>
    match asBulkString a with
    | none => (s, acc, false)
    | some v =>
      if s.contains v then sremLoop as (s.erase v) (acc + 1)
      else sremLoop as s acc

/-- `SREM`: the number of members actually removed, `0` if the key is
absent. -/
def sremCmd : Handler := fun args m now =>
  match args with
  | a :: b :: rest =>
    match asBulkString a with
    | none => (m, errNotBulkString)
    | some k =>
      let r := Find StoredValue.asSet m now k
      match r.2 with
      | .wrongType => (r.1, errWrongType)
      | .notFound => (r.1, .int 0)
      | .ok s =>
        let p := sremLoop (b :: rest) s 0
        let m' := updateAt r.1 k fun e => ⟨.set p.1, e.expiresAt⟩
        if p.2.2 then (m', .int (p.2.1 : Int)) else (m', errNotBulkString)
  | _ => (m, errArgCount ("SREM".toList))

/-- `SCARD`: set cardinality, `0` if absent. -/
def scardCmd : Handler := fun args m now =>
  match args with
  | [a] =>
    match asBulkString a with
    | none => (m, errNotBulkString)
    | some k =>
      let r := Find StoredValue.asSet m now k
      match r.2 with
      | .wrongType => (r.1, errWrongType)
      | .notFound => (r.1, .int 0)
      | .ok s => (r.1, .int (s.length : Int))
  | _ => (m, errArgCount ("SCARD".toList))

/-- `SMEMBERS`: all members as bulk strings, empty array if absent. -/
def smembersCmd : Handler := fun args m now =>
  match args with
  | [a] =>
    match asBulkString a with
    | none => (m, errNotBulkString)
    | some k =>
      let r := Find StoredValue.asSet m now k
      match r.2 with
      | .wrongType => (r.1, errWrongType)
      | .notFound => (r.1, .arr [])
      | .ok s => (r.1, .arr (s.map .bulk))
  | _ => (m, errArgCount ("SMEMBERS".toList))

/-- Outcome of collecting `SINTER`'s non-first operands. -/
inductive SinterScan where
  | notBulk
  | wrong
  | absent
  | sets (l : List (List (List Char)))
deriving DecidableEq, Repr

/-- The `SINTER` collection loop over the keys after the first: stops at
the first non-bulk argument, wrong-kind operand or absent operand, with
the lazy-expiry map effects up to that point applied. -/
def sinterCollect : List RVal → StorageMap → Nat → StorageMap × SinterScan
  | [], m, _ => (m, .sets [])
  | a :: as, m, now =>
    match asBulkString a with
    | none => (m, .notBulk)
    | some k =>
      let r := Find StoredValue.asSet m now k
      match r.2 with
      | .wrongType => (r.1, .wrong)
      | .notFound => (r.1, .absent)
      | .ok s =>
        let rest := sinterCollect as r.1 now
        match rest.2 with
        | .sets l => (rest.1, .sets (s :: l))
        | other => (rest.1, other)

/-- `SINTER`: members of the first set contained in every other operand;
operands are examined left to right and the first offender decides
(WRONGTYPE for a wrong-kind operand, empty array for an absent one). -/
def sinterCmd : Handler := fun args m now =>
  match args with
  | [] => (m, errArgCount ("SINTER".toList))
  | a :: rest =>
    match asBulkString a with
    | none => (m, errNotBulkString)
    | some k =>
      let r := Find StoredValue.asSet m now k
      match r.2 with
      | .wrongType => (r.1, errWrongType)
      | .notFound => (r.1, .arr [])
      | .ok first =>
        let c := sinterCollect rest r.1 now
        match c.2 with
        | .notBulk => (c.1, errNotBulkString)
        | .wrong => (c.1, errWrongType)
        | .absent => (c.1, .arr [])
        | .sets others =>
          (c.1, .arr ((first.filter fun x => others.all fun s => s.contains x).map .bulk))

/-- `SISMEMBER`: membership as `1`/`0`, `0` if the key is absent. -/
def sismemberCmd : Handler := fun args m now =>
  match args with
  | [a, b] =>
    match asBulkString a, asBulkString b with
    | some k, some v =>
      let r := Find StoredValue.asSet m now k
      match r.2 with
      | .wrongType => (r.1, errWrongType)
      | .notFound => (r.1, .int 0)
      | .ok s => (r.1, .int (if s.contains v then 1 else 0))
    | _, _ => (m, errNotBulkString)
  | _ => (m, errArgCount ("SISMEMBER".toList))

/-- `EXPIRE`: set a deadline `now + seconds`; `1` if set, `0` if absent;
negative seconds are an integer error. -/
def expireCmd : Handler := fun args m now =>
  match args with
  | [a, b] =>
    match asBulkString a, asBulkString b with
    | some k, some ss =>
      match fromCharsInt ss with
      | none => (m, errNotInteger)
      | some secs =>
        if secs < 0 then (m, errNotInteger)
        else
          let r := SetExpiry m now k secs.toNat
          (r.1, .int (if r.2 then 1 else 0))
    | _, _ => (m, errNotBulkString)
  | _ => (m, errArgCount ("EXPIRE".toList))

/-- `TTL`. -/
def ttlCmd : Handler := fun args m now =>
  match args with
  | [a] =>
    match asBulkString a with
    | none => (m, errNotBulkString)
    | some k =>
      let r := GetTtl m now k
      (r.1, .int r.2)
  | _ => (m, errArgCount ("TTL".toList))

/-- The command table `COMMANDS`, in registration (frequency) order. -/
def COMMANDS : List (List Char × Handler) :=
  [(("GET").toList, getCmd), (("SET").toList, setCmd), (("DEL").toList, delCmd),
   (("PING").toList, pingCmd), (("KEYS").toList, keysCmd),
   (("FLUSHDB").toList, flushdbCmd), (("LPUSH").toList, lpushCmd),
   (("RPUSH").toList, rpushCmd), (("LPOP").toList, lpopCmd),
   (("RPOP").toList, rpopCmd), (("LLEN").toList, llenCmd),
   (("LRANGE").toList, lrangeCmd), (("SADD").toList, saddCmd),
   (("SREM").toList, sremCmd), (("SCARD").toList, scardCmd),
   (("SMEMBERS").toList, smembersCmd), (("SINTER").toList, sinterCmd),
   (("SISMEMBER").toList, sismemberCmd), (("EXPIRE").toList, expireCmd),
   (("TTL").toList, ttlCmd)]

/-- `CommandHandler::Dispatch`: linear scan in registration order; an
unknown name yields `ERR unknown command '<name>'` and leaves the store
untouched. -/
def Dispatch (name : List Char) (args : List RVal) (m : StorageMap) (now : Nat) :
    StorageMap × RVal :=
  match COMMANDS.find? fun e => e.1 == name with
  | some e => e.2 args m now
  | none => (m, .err (("ERR unknown command ").toList ++ [sq] ++ name ++ [sq]))

/-- `CommandHandler::add`: reject (throw on) any name character outside
`A`–`Z` and any duplicate of an already-registered name; `none` models the
throw. -/
def addName (entries : List (List Char)) (name : List Char) :
    Option (List (List Char)) :=
  if name.all (fun c => decide ('A' ≤ c) && decide (c ≤ 'Z')) then
    if entries.contains name then none else some (entries ++ [name])
  else none

/-- The chain of `.add` calls that builds the table, on the names. -/
def registerNames (names : List (List Char)) : Option (List (List Char)) :=
  names.foldlM addName []

/-- The registered command names, in registration order. -/
def COMMAND_NAMES : List (List Char) := COMMANDS.map (·.1)

/-! ## Frame lemmas for map update and insertion -/

theorem mapFind_updateAt (m : StorageMap) (k : Key) (f : Entry → Entry) (k' : Key) :
    mapFind (updateAt m k f) k'
      = if k' = k then (mapFind m k').map f else mapFind m k' := by
  induction m with
  | nil => simp [mapFind, updateAt]
  | cons p m ih =>
    have hstep : updateAt (p :: m) k f
        = (if p.1 == k then (p.1, f p.2) else p) :: updateAt m k f := rfl
    rw [hstep, mapFind_cons, mapFind_cons, ih]
    by_cases hpk : p.1 = k <;> by_cases hpk' : p.1 = k'
    · have hk : k' = k := hpk'.symm.trans hpk
      simp_all [mapFind_cons]
    · have hk : ¬k' = k := fun hh => hpk' (hpk.trans hh.symm)
      simp_all [mapFind_cons]
    · have hk : ¬k' = k := fun hh => hpk (hpk'.trans hh)
      simp_all [mapFind_cons]
    · simp_all [mapFind_cons]

theorem mapFind_append_self (m : StorageMap) (k : Key) (e : Entry)
    (h : mapFind m k = none) :
    mapFind (m ++ [(k, e)]) k = some e := by
  induction m with
  | nil => simp [mapFind]
  | cons p m ih =>
    rw [List.cons_append, mapFind_cons]
    rw [mapFind_cons] at h
    by_cases hpk : p.1 = k
    · rw [if_pos (by simp [hpk])] at h
      exact absurd h (by simp)
    · rw [if_neg (by simp [hpk])] at h ⊢
      exact ih h

theorem mapFind_append_other (m : StorageMap) (k : Key) (e : Entry) (k' : Key)
    (h : k' ≠ k) :
    mapFind (m ++ [(k, e)]) k' = mapFind m k' := by
  induction m with
  | nil =>
    rw [List.nil_append, mapFind_cons,
      if_neg (by simp; intro he; exact h he.symm)]
  | cons p m ih =>
    rw [List.cons_append, mapFind_cons, mapFind_cons, ih]

/-- **C9** — SET preserves an existing deadline: on a key holding a live
(non-expired) string entry, `SET key value` replies OK, overwrites the
stored bytes, leaves `expires_at` exactly as it was, and touches no other
key; on an absent key the freshly created entry has no deadline. -/
theorem set_preserves_deadline (m : StorageMap) (now : Nat) (k v s : List Char)
    (exp : Option Nat) :
    (mapFind m k = some ⟨.str s, exp⟩ →
      Entry.Expired ⟨.str s, exp⟩ now = false →
      (setCmd [.bulk k, .bulk v] m now).2 = okReply ∧
      mapFind (setCmd [.bulk k, .bulk v] m now).1 k = some ⟨.str v, exp⟩ ∧
      (∀ k', k' ≠ k →
        mapFind (setCmd [.bulk k, .bulk v] m now).1 k' = mapFind m k')) ∧
    (mapFind m k = none →
      (setCmd [.bulk k, .bulk v] m now).2 = okReply ∧
      mapFind (setCmd [.bulk k, .bulk v] m now).1 k = some ⟨.str v, none⟩) := by
  constructor
  · intro hv hx
    have hlive := findEntry_live m now k ⟨.str s, exp⟩ hv hx
    have hrun : setCmd [.bulk k, .bulk v] m now
        = (updateAt m k fun e => ⟨.str v, e.expiresAt⟩, okReply) := by
      simp only [setCmd, asBulkString, FindOrCreate]
      rw [hlive]
      rfl
    refine ⟨by rw [hrun], ?_, fun k' hk' => ?_⟩
    · rw [hrun]
      simp [mapFind_updateAt, hv]
    · rw [hrun]
      simp [mapFind_updateAt, if_neg hk']
  · intro hnone
    have habs : FindEntry m now k = (m, none) := by
      unfold FindEntry
      rw [hnone]
    have hrun : setCmd [.bulk k, .bulk v] m now
        = (updateAt (m ++ [(k, ⟨.str [], none⟩)]) k fun e => ⟨.str v, e.expiresAt⟩,
           okReply) := by
      simp only [setCmd, asBulkString, FindOrCreate]
      rw [habs]
    refine ⟨by rw [hrun], ?_⟩
    rw [hrun]
    simp [mapFind_updateAt, mapFind_append_self m k _ hnone]

/-- Witness for C9: overwriting a live entry with deadline 99 keeps the
deadline and the sibling key; a fresh SET creates a deadline-free entry. -/
theorem set_preserves_deadline_witness :
    (setCmd [.bulk ['k'], .bulk ['n']]
        [(['k'], ⟨.str ['o'], some 99⟩), (['z'], ⟨.str ['w'], none⟩)] 5).2 = okReply ∧
    mapFind (setCmd [.bulk ['k'], .bulk ['n']]
        [(['k'], ⟨.str ['o'], some 99⟩), (['z'], ⟨.str ['w'], none⟩)] 5).1 ['k']
      = some ⟨.str ['n'], some 99⟩ ∧
    mapFind (setCmd [.bulk ['k'], .bulk ['n']]
        [(['k'], ⟨.str ['o'], some 99⟩), (['z'], ⟨.str ['w'], none⟩)] 5).1 ['z']
      = mapFind [(['k'], ⟨.str ['o'], some 99⟩), (['z'], ⟨.str ['w'], none⟩)] ['z'] ∧
    mapFind (setCmd [.bulk ['q'], .bulk ['n']] [] 5).1 ['q']
      = some ⟨.str ['n'], none⟩ := by
  have h := set_preserves_deadline
    [(['k'], ⟨.str ['o'], some 99⟩), (['z'], ⟨.str ['w'], none⟩)] 5 ['k'] ['n'] ['o'] (some 99)
  have h2 := set_preserves_deadline [] 5 ['q'] ['n'] [] none
  obtain ⟨ha, hb, hc⟩ := h.1 (by decide) (by decide)
  exact ⟨ha, hb, hc ['z'] (by decide), (h2.2 (by decide)).2⟩

/-! ## DEL counts each distinct present key once -/

theorem filter_length_split (l : List Key) (p q : Key → Bool) (k : Key)
    (hl : l.Nodup) (hk : k ∈ l) (hpk : p k = true) (hqk : q k = false)
    (hagree : ∀ x ∈ l, x ≠ k → p x = q x) :
    (l.filter p).length = (l.filter q).length + 1 := by
  induction l with
  | nil => simp at hk
  | cons a l ih =>
    by_cases hak : a = k
    · subst hak
      have hknotin : a ∉ l := (List.nodup_cons.mp hl).1
      have hfl : l.filter p = l.filter q :=
        List.filter_congr fun x hx =>
          hagree x (by simp [hx]) (fun he => hknotin (he ▸ hx))
      simp [List.filter_cons, hpk, hqk, hfl]
    · have hkl : k ∈ l := by
        rcases List.mem_cons.mp hk with h | h
        · exact absurd h.symm hak
        · exact h
      have hpa : p a = q a := hagree a (by simp) hak
      have ihl := ih (List.nodup_cons.mp hl).2 hkl
        (fun x hx hxk => hagree x (by simp [hx]) hxk)
      rw [List.filter_cons, List.filter_cons, ← hpa]
      cases hpa' : p a <;> simp [ihl]

theorem delLoop_count (ks : List Key) : ∀ (m : StorageMap) (acc : Nat),
    delLoop (ks.map .bulk) m acc
      = ((delLoop (ks.map .bulk) m acc).1,
         some (acc + (ks.dedup.filter fun k' => (mapFind m k').isSome).length)) := by
  induction ks with
  | nil => intro m acc; simp [delLoop]
  | cons k ks ih =>
    intro m acc
    rw [List.map_cons]
    simp only [delLoop, asBulkString]
    cases hm : mapFind m k with
    | none =>
      have he : eraseKey m k = (m, false) := by unfold eraseKey; rw [hm]
      rw [he]
      simp only [if_neg (by simp : ¬false = true), Nat.add_zero]
      rw [ih m acc]
      by_cases hkin : k ∈ ks
      · rw [List.dedup_cons_of_mem hkin]
      · rw [List.dedup_cons_of_not_mem hkin, List.filter_cons,
          if_neg (by simp [hm])]
    | some e =>
      have he : eraseKey m k = (mapErase m k, true) := by unfold eraseKey; rw [hm]
      rw [he]
      have hone : acc + (if (true = true) then 1 else 0) = acc + 1 := by simp
      rw [hone, ih (mapErase m k) (acc + 1)]
      refine congrArg _ (congrArg _ ?_)
      by_cases hkin : k ∈ ks
      · rw [List.dedup_cons_of_mem hkin]
        have hs := filter_length_split (List.dedup ks)
          (fun x => (mapFind m x).isSome)
          (fun x => (mapFind (mapErase m k) x).isSome) k
          (List.nodup_dedup ks) (List.mem_dedup.mpr hkin)
          (by simp [hm]) (by simp [mapFind_mapErase])
          (fun x hx hxk => by simp [mapFind_mapErase, hxk])
        omega
      · rw [List.dedup_cons_of_not_mem hkin, List.filter_cons,
          if_pos (by simp [hm])]
        have heq : (List.dedup ks).filter (fun x => (mapFind m x).isSome)
            = (List.dedup ks).filter (fun x => (mapFind (mapErase m k) x).isSome) :=
          List.filter_congr fun x hx => by
            have hxk : x ≠ k := fun he => hkin (he ▸ List.mem_dedup.mp hx)
            simp [mapFind_mapErase, hxk]
        rw [heq]
        simp only [List.length_cons]
        omega

/-- **C7** — Erase/DEL removal counting: `erase` returns true exactly when
the key is structurally present (no expiration check — an expired entry
still counts), and removes it; `DEL k₁ … kₙ` (all bulk strings) replies
with the integer number of keys for which erase returned true, which is
the number of distinct argument keys present in the map. -/
theorem erase_del_counting (m : StorageMap) (k : Key) (ks : List Key) (now : Nat) :
    ((eraseKey m k).2 = (mapFind m k).isSome) ∧
    (∀ e, mapFind m k = some e → Entry.Expired e now = true →
      (eraseKey m k).2 = true) ∧
    mapFind (eraseKey m k).1 k = none ∧
    (ks ≠ [] →
      (delCmd (ks.map .bulk) m now).2
        = .int ((ks.dedup.filter fun k' => (mapFind m k').isSome).length : Int)) := by
  refine ⟨?_, ?_, ?_, ?_⟩
  · unfold eraseKey
    cases h : mapFind m k <;> simp [h]
  · intro e he _
    unfold eraseKey
    rw [he]
  · unfold eraseKey
    cases h : mapFind m k with
    | none => simpa using h
    | some e => simp [mapFind_mapErase]
  · intro hne
    cases ks with
    | nil => exact absurd rfl hne
    | cons k0 ks' =>
      have hd := delLoop_count (k0 :: ks') m 0
      rw [List.map_cons] at hd ⊢
      simp only [delCmd]
      rw [hd]
      simp

/-- Witness for C7: erasing an expired-but-present key returns true; DEL
with a duplicated present key, an absent key and another present key
counts 2. -/
theorem erase_del_counting_witness :
    (eraseKey [(['a'], ⟨.str ['x'], some 0⟩), (['b'], ⟨.str ['y'], none⟩)] ['a']).2
      = true ∧
    (delCmd ([['a'], ['a'], ['z'], ['b']].map .bulk)
        [(['a'], ⟨.str ['x'], some 0⟩), (['b'], ⟨.str ['y'], none⟩)] 5).2
      = .int 2 := by
  have h := erase_del_counting
    [(['a'], ⟨.str ['x'], some 0⟩), (['b'], ⟨.str ['y'], none⟩)] ['a']
    [['a'], ['a'], ['z'], ['b']] 5
  refine ⟨h.2.1 ⟨.str ['x'], some 0⟩ (by decide) (by decide), ?_⟩
  have hd := h.2.2.2 (by decide)
  rw [hd]
  decide

/-- Every registered name is uppercase-only (checked on the literal
table). -/
theorem command_names_upper :
    ∀ n ∈ COMMAND_NAMES, n.all (fun ch => decide ('A' ≤ ch) && decide (ch ≤ 'Z')) = true := by
  decide

/-- **C10** — Case-sensitive dispatch: lookup compares the received name
byte-for-byte with the registered uppercase names, so any name containing
a character outside `A`–`Z` (in particular any lowercase or mixed-case
spelling such as `ping`) misses every entry: the reply is the error
`ERR unknown command '<name>'` and the keyspace is returned unchanged. -/
theorem dispatch_case_sensitive (name : List Char) (args : List RVal)
    (m : StorageMap) (now : Nat) (c : Char) (hc : c ∈ name)
    (hup : ¬('A' ≤ c ∧ c ≤ 'Z')) :
    Dispatch name args m now
      = (m, .err (("ERR unknown command ").toList ++ [sq] ++ name ++ [sq])) := by
  have hnone : COMMANDS.find? (fun e => e.1 == name) = none := by
    rw [List.find?_eq_none]
    intro e he heq
    have hmem : e.1 ∈ COMMAND_NAMES := List.mem_map_of_mem _ he
    have hname : e.1 = name := by simpa using heq
    have hc' : c ∈ e.1 := hname ▸ hc
    have hball := List.all_eq_true.mp (command_names_upper e.1 hmem) c hc'
    simp at hball
    exact hup hball
  unfold Dispatch
  rw [hnone]

/-- Witness for C10: `ping` (lowercase) on the empty store. -/
theorem dispatch_case_sensitive_witness :
    Dispatch (("ping").toList) [] [] 0
      = ([], .err (("ERR unknown command ").toList ++ [sq] ++ (("ping").toList) ++ [sq])) :=
  dispatch_case_sensitive (("ping").toList) [] [] 0 'p' (by decide) (by decide)

/-- **C6** (counterexample) — the registration check does **not** reject
the empty name: `add` iterates the uppercase check over the name's
characters, which is vacuous for an empty name, so registering `""` into
an empty table succeeds instead of failing loudly. -/
theorem add_accepts_empty_name :
    addName [] [] = some [[]] ∧ addName [] [] ≠ none := by
  decide

/-- **C6** (amended) — registration rejects exactly the names containing a
character outside `A`–`Z` and the duplicates of already-registered names
(the empty name passes the check vacuously); the actually-built table
registers successfully and every entry of it is non-empty, uppercase-only
and unique. -/
theorem add_checks_and_table_invariants :
    (∀ (entries : List (List Char)) (name : List Char),
      (addName entries name).isSome
        = (name.all (fun c => decide ('A' ≤ c) && decide (c ≤ 'Z'))
            && !(entries.contains name))) ∧
    registerNames COMMAND_NAMES = some COMMAND_NAMES ∧
    (COMMAND_NAMES.all fun n => !n.isEmpty) = true ∧
    COMMAND_NAMES.Nodup ∧
    (COMMAND_NAMES.all fun n =>
      n.all fun c => decide ('A' ≤ c) && decide (c ≤ 'Z')) = true := by
  refine ⟨fun entries name => ?_, by decide, by decide, by decide, by decide⟩
  unfold addName
  by_cases h1 : (name.all fun c => decide ('A' ≤ c) && decide (c ≤ 'Z')) = true
  · rw [if_pos h1]
    cases h2 : entries.contains name <;> simp [h1, h2]
  · have h1f : (name.all fun c => decide ('A' ≤ c) && decide (c ≤ 'Z')) = false :=
      Bool.eq_false_iff.mpr h1
    rw [if_neg h1]
    simp [h1f]

/-! ## LRANGE: the index loop is the inclusive clamped slice -/

theorem collectRange_eq (l : List (List Char)) :
    ∀ (n a : Nat), a + n ≤ l.length →
      collectRange l (a : Int) n = (l.drop a).take n := by
  intro n
  induction n with
  | zero => intro a _; simp [collectRange]
  | succ n ih =>
    intro a h
    have ha : a < l.length := by omega
    have hcast : ((a : Int) + 1) = ((a + 1 : Nat) : Int) := by omega
    have hstep : collectRange l (a : Int) (n + 1)
        = l.getD ((a : Int)).toNat [] :: collectRange l ((a : Int) + 1) n := rfl
    have htn : ((a : Int)).toNat = a := by omega
    rw [hstep, hcast, ih (a + 1) (by omega), htn,
      List.getD_eq_getElem l [] ha, List.drop_eq_getElem_cons ha,
      List.take_succ_cons]

/-- The clamped effective start index of LRANGE. -/
def lrStart (len s : Int) : Int := if s < 0 then max 0 (len + s) else s

/-- The clamped effective stop index of LRANGE. -/
def lrStop (len t : Int) : Int := min (if t < 0 then len + t else t) (len - 1)

theorem collectRange_slice (l : List (List Char)) (start stop : Int)
    (h0 : 0 ≤ start) (h1 : stop ≤ (l.length : Int) - 1) :
    collectRange l start (stop + 1 - start).toNat
      = (l.drop start.toNat).take (stop + 1 - start).toNat := by
  rcases le_or_lt (stop + 1 - start) 0 with hle | hlt
  · have hz : (stop + 1 - start).toNat = 0 := by omega
    rw [hz]
    simp [collectRange]
  · have hs : start = ((start.toNat : Nat) : Int) := by omega
    rw [hs]
    exact collectRange_eq l _ start.toNat (by omega)

theorem lrStart_nonneg (len s : Int) (_h : 0 ≤ len) : 0 ≤ lrStart len s := by
  unfold lrStart
  split_ifs with h1
  · exact le_max_left 0 _
  · omega

theorem lrStop_le (len t : Int) : lrStop len t ≤ len - 1 := min_le_right _ _

/-- **C5** — LRANGE semantics: with a key and two integer arguments, on an
absent key the reply is an empty Array; on a wrong-kind value it is
WRONGTYPE; on a list it is exactly the inclusive slice `start..stop`
(negative indices from the end, `start` clamped to 0, `stop` clamped to
`len − 1`) of the list, in order — stated as `drop`/`take`; the slice is
empty whenever the clamped range is. -/
theorem lrange_clamped_slice (m : StorageMap) (now : Nat)
    (k sb tb : List Char) (s t : Int)
    (hs : fromCharsInt sb = some s) (ht : fromCharsInt tb = some t) :
    ((FindEntry m now k).2 = none →
      (lrangeCmd [.bulk k, .bulk sb, .bulk tb] m now).2 = .arr []) ∧
    (∀ e, (FindEntry m now k).2 = some e → e.value.asList = none →
      (lrangeCmd [.bulk k, .bulk sb, .bulk tb] m now).2 = errWrongType) ∧
    (∀ l exp, mapFind m k = some ⟨.list l, exp⟩ →
      Entry.Expired ⟨.list l, exp⟩ now = false →
      (lrangeCmd [.bulk k, .bulk sb, .bulk tb] m now).2
        = .arr (((l.drop (lrStart (l.length : Int) s).toNat).take
            ((lrStop (l.length : Int) t + 1 - lrStart (l.length : Int) s).toNat)).map
              .bulk)) := by
  refine ⟨fun h2 => ?_, fun e he hl => ?_, fun l exp hv hx => ?_⟩
  · simp only [lrangeCmd, asBulkString]
    rw [hs, ht]
    simp only [Find]
    rw [h2]
  · simp only [lrangeCmd, asBulkString]
    rw [hs, ht]
    simp only [Find]
    rw [he]
    simp [hl]
  · have hlive := findEntry_live m now k ⟨.list l, exp⟩ hv hx
    simp only [lrangeCmd, asBulkString]
    rw [hs, ht]
    simp only [Find, hlive, StoredValue.asList]
    have hslice := collectRange_slice l (lrStart (l.length : Int) s)
      (lrStop (l.length : Int) t)
      (lrStart_nonneg _ _ (by positivity)) (lrStop_le _ _)
    rw [show (if s < 0 then max 0 ((l.length : Int) + s) else s)
          = lrStart (l.length : Int) s from rfl,
        show (min (if t < 0 then (l.length : Int) + t else t) ((l.length : Int) - 1))
          = lrStop (l.length : Int) t from rfl,
        hslice]

/-- Witness for C5 on the four-element list `[a, b, c, d]` with
`LRANGE key -2 -1` (the last two elements) and an absent key. -/
theorem lrange_clamped_slice_witness :
    (lrangeCmd [.bulk ['l'], .bulk ['-', '2'], .bulk ['-', '1']]
        [(['l'], ⟨.list [['a'], ['b'], ['c'], ['d']], none⟩)] 0).2
      = .arr [.bulk ['c'], .bulk ['d']] ∧
    (lrangeCmd [.bulk ['z'], .bulk ['0'], .bulk ['5']] [] 0).2 = .arr [] := by
  constructor
  · have h := (lrange_clamped_slice [(['l'], ⟨.list [['a'], ['b'], ['c'], ['d']], none⟩)] 0
      ['l'] ['-', '2'] ['-', '1'] (-2) (-1) (by decide) (by decide)).2.2
      [['a'], ['b'], ['c'], ['d']] none (by decide) (by decide)
    rw [h]
    decide
  · exact (lrange_clamped_slice [] 0 ['z'] ['0'] ['5'] 0 5
      (by decide) (by decide)).1 (by decide)

/-! ## SINTER: lazy-expiry side effects do not change later lookups -/

theorem Find_snd_none {α : Type} (proj : StoredValue → Option α)
    (m : StorageMap) (now : Nat) (k : Key)
    (h : (FindEntry m now k).2 = none) :
    (Find proj m now k).2 = .notFound := by
  simp only [Find, h]

theorem Find_snd_wrong {α : Type} (proj : StoredValue → Option α)
    (m : StorageMap) (now : Nat) (k : Key) (e : Entry)
    (h : (FindEntry m now k).2 = some e) (hp : proj e.value = none) :
    (Find proj m now k).2 = .wrongType := by
  simp only [Find, h, hp]

theorem Find_snd_ok {α : Type} (proj : StoredValue → Option α)
    (m : StorageMap) (now : Nat) (k : Key) (e : Entry) (v : α)
    (h : (FindEntry m now k).2 = some e) (hp : proj e.value = some v) :
    (Find proj m now k).2 = .ok v := by
  simp only [Find, h, hp]

theorem Find_fst {α : Type} (proj : StoredValue → Option α)
    (m : StorageMap) (now : Nat) (k : Key) :
    (Find proj m now k).1 = (FindEntry m now k).1 := by
  rcases hfe : (FindEntry m now k).2 with _ | e
  · simp only [Find, hfe]
  · rcases hp : proj e.value with _ | v <;> simp only [Find, hfe, hp]

theorem Find_congr {α : Type} (proj : StoredValue → Option α)
    (m m' : StorageMap) (now : Nat) (k : Key)
    (h : (FindEntry m now k).2 = (FindEntry m' now k).2) :
    (Find proj m now k).2 = (Find proj m' now k).2 := by
  rcases hfe : (FindEntry m' now k).2 with _ | e
  · rw [Find_snd_none proj m now k (h.trans hfe), Find_snd_none proj m' now k hfe]
  · rcases hp : proj e.value with _ | v
    · rw [Find_snd_wrong proj m now k e (h.trans hfe) hp,
        Find_snd_wrong proj m' now k e hfe hp]
    · rw [Find_snd_ok proj m now k e v (h.trans hfe) hp,
        Find_snd_ok proj m' now k e v hfe hp]

/-- A `FindEntry` (which may lazily erase one expired entry) never changes
the outcome of any later `FindEntry` at the same instant. -/
theorem findEntry_preserves (m : StorageMap) (now : Nat) (k k' : Key) :
    (FindEntry ((FindEntry m now k).1) now k').2 = (FindEntry m now k').2 := by
  rcases hm : mapFind m k with _ | e
  · have h1 : FindEntry m now k = (m, none) := by unfold FindEntry; rw [hm]
    rw [h1]
  · by_cases hx : e.Expired now = true
    · have h1 : FindEntry m now k = (mapErase m k, none) := by
        unfold FindEntry
        rw [hm]
        simp [hx]
      rw [h1]
      by_cases hk : k' = k
      · subst hk
        have hl : mapFind (mapErase m k') k' = none := by simp [mapFind_mapErase]
        have h2 : FindEntry (mapErase m k') now k' = (mapErase m k', none) := by
          unfold FindEntry; rw [hl]
        have h3 : FindEntry m now k' = (mapErase m k', none) := by
          unfold FindEntry
          rw [hm]
          simp [hx]
        rw [h2, h3]
      · have hl : mapFind (mapErase m k) k' = mapFind m k' := by
          rw [mapFind_mapErase, if_neg hk]
        rcases hm' : mapFind m k' with _ | e'
        · have hn : mapFind (mapErase m k) k' = none := by rw [hl, hm']
          unfold FindEntry
          rw [hn, hm']
        · have hsome : mapFind (mapErase m k) k' = some e' := by rw [hl, hm']
          unfold FindEntry
          rw [hsome, hm']
          by_cases hx' : e'.Expired now = true <;> simp [hx']
    · have hxf : e.Expired now = false := by simpa using hx
      rw [findEntry_live m now k e hm hxf]

/-- Modelled from the amended claim: SINTER examines the operand keys
after the first in argument order, each classified against the state at
invocation time; the first offender decides the reply (WRONGTYPE for a
wrong-kind operand, empty Array for an absent one), and if none offends
the reply is the members of the first set contained in all operands. -/
def sinterSpec (m : StorageMap) (now : Nat) (s0 : List (List Char)) :
    List (List (List Char)) → List Key → RVal
  | acc, [] => .arr ((s0.filter fun x => acc.all fun s => s.contains x).map .bulk)
  | acc, k :: ks =>
    match (Find StoredValue.asSet m now k).2 with
    | .notFound => .arr []
    | .wrongType => errWrongType
    | .ok s => sinterSpec m now s0 (acc ++ [s]) ks

theorem sinterCollect_reply (ks : List Key) :
    ∀ (m m0 : StorageMap) (now : Nat),
    (∀ k, (FindEntry m now k).2 = (FindEntry m0 now k).2) →
    ∀ (s0 : List (List Char)) (acc : List (List (List Char))),
    (match (sinterCollect (ks.map .bulk) m now).2 with
     | .notBulk => errNotBulkString
     | .wrong => errWrongType
     | .absent => .arr []
     | .sets others =>
        .arr ((s0.filter fun x => (acc ++ others).all fun s => s.contains x).map .bulk))
      = sinterSpec m0 now s0 acc ks := by
  induction ks with
  | nil =>
    intro m m0 now hsim s0 acc
    simp [sinterCollect, sinterSpec]
  | cons k ks ih =>
    intro m m0 now hsim s0 acc
    rw [List.map_cons]
    simp only [sinterCollect, asBulkString]
    have hcl := Find_congr StoredValue.asSet m m0 now k (hsim k)
    rcases hF : (Find StoredValue.asSet m now k).2 with _ | _ | s
    · have h0 : (Find StoredValue.asSet m0 now k).2 = .notFound := hcl.symm.trans hF
      simp only [hF, sinterSpec, h0]
    · have h0 : (Find StoredValue.asSet m0 now k).2 = .wrongType := hcl.symm.trans hF
      simp only [hF, sinterSpec, h0]
    · have h0 : (Find StoredValue.asSet m0 now k).2 = .ok s := hcl.symm.trans hF
      simp only [hF, sinterSpec, h0]
      have hsim' : ∀ k', (FindEntry ((Find StoredValue.asSet m now k).1) now k').2
          = (FindEntry m0 now k').2 := by
        intro k'
        rw [Find_fst]
        exact (findEntry_preserves m now k k').trans (hsim k')
      have hih := ih ((Find StoredValue.asSet m now k).1) m0 now hsim' s0 (acc ++ [s])
      rcases hr : (sinterCollect (ks.map .bulk) ((Find StoredValue.asSet m now k).1) now).2
        with _ | _ | _ | others
      · simp only [hr] at hih ⊢
        exact hih
      · simp only [hr] at hih ⊢
        exact hih
      · simp only [hr] at hih ⊢
        exact hih
      · simp only [hr] at hih ⊢
        rw [List.append_assoc] at hih
        simpa using hih

/-- **C4** (amended) — SINTER's first-offender semantics: with one or more
bulk-string keys, the first key decides first (WRONGTYPE if it holds a
non-set, empty Array if absent); otherwise the remaining operand keys are
examined in argument order with the same rule, and if none offends the
reply is exactly the members of the first set contained in every other
operand (`sinterSpec`). -/
theorem sinter_first_offender (m : StorageMap) (now : Nat) (k0 : Key) (ks : List Key) :
    ((Find StoredValue.asSet m now k0).2 = .wrongType →
      (sinterCmd ((k0 :: ks).map .bulk) m now).2 = errWrongType) ∧
    ((Find StoredValue.asSet m now k0).2 = .notFound →
      (sinterCmd ((k0 :: ks).map .bulk) m now).2 = .arr []) ∧
    (∀ s0, (Find StoredValue.asSet m now k0).2 = .ok s0 →
      (sinterCmd ((k0 :: ks).map .bulk) m now).2 = sinterSpec m now s0 [] ks) := by
  refine ⟨fun hw => ?_, fun ha => ?_, fun s0 hok => ?_⟩
  · rw [List.map_cons]
    simp only [sinterCmd, asBulkString, hw]
  · rw [List.map_cons]
    simp only [sinterCmd, asBulkString, ha]
  · rw [List.map_cons]
    simp only [sinterCmd, asBulkString, hok]
    have hsim : ∀ k', (FindEntry ((Find StoredValue.asSet m now k0).1) now k').2
        = (FindEntry m now k').2 := fun k' => by
      rw [Find_fst]
      exact findEntry_preserves m now k0 k'
    have hrep := sinterCollect_reply ks ((Find StoredValue.asSet m now k0).1) m now hsim s0 []
    rcases hc : (sinterCollect (ks.map .bulk) ((Find StoredValue.asSet m now k0).1) now).2
      with _ | _ | _ | others
    · simp only [hc] at hrep ⊢
      exact hrep
    · simp only [hc] at hrep ⊢
      exact hrep
    · simp only [hc] at hrep ⊢
      exact hrep
    · simp only [hc] at hrep ⊢
      simpa using hrep

/-- **C4** (counterexample) — the claim's clause "if any operand key is
absent, the reply is an empty Array" fails on the code: with `a` holding a
string and `b` absent, `SINTER a b` replies WRONGTYPE (the first offender,
in argument order, decides), not an empty Array. -/
theorem sinter_absent_operand_not_empty :
    mapFind [(['a'], ⟨.str ['v'], none⟩)] ['b'] = none ∧
    (sinterCmd [.bulk ['a'], .bulk ['b']] [(['a'], ⟨.str ['v'], none⟩)] 0).2
      = errWrongType ∧
    (sinterCmd [.bulk ['a'], .bulk ['b']] [(['a'], ⟨.str ['v'], none⟩)] 0).2
      ≠ .arr [] := by
  decide

/-- Witness for the amended C4 on `{s1 ↦ {a,b,c}, s2 ↦ {b,c,d}}`. -/
theorem sinter_first_offender_witness :
    (sinterCmd (([['s', '1'], ['s', '2']] : List Key).map .bulk)
        [(['s', '1'], ⟨.set [['a'], ['b'], ['c']], none⟩),
         (['s', '2'], ⟨.set [['b'], ['c'], ['d']], none⟩)] 0).2
      = .arr [.bulk ['b'], .bulk ['c']] := by
  have h := (sinter_first_offender
      [(['s', '1'], ⟨.set [['a'], ['b'], ['c']], none⟩),
       (['s', '2'], ⟨.set [['b'], ['c'], ['d']], none⟩)]
      0 ['s', '1'] [['s', '2']]).2.2 [['a'], ['b'], ['c']] (by decide)
  exact h.trans (by decide)

/-! ### C8 — `Storage::Sweep` (active expiration, `command_handler.hpp` 162-185)

The hash table is modelled at bucket granularity: a list of buckets, each a
list of (key, entry) pairs, and `rng_()` as a function from the attempt
index to a `Nat`.  `walkBucket` is the inner `for (it = begin(bucket); ...)`
loop: it stops at `checked >= max_checks`, erases an expired entry and
breaks (iterator invalidation), and otherwise counts the entry as checked.
Its third component counts how many entries had `Expired` evaluated on
them.  `sweepLoop` is the outer attempt loop, structural on the remaining
attempt budget `max_checks * 2 - attempt`; it threads `checked` and counts
bucket picks and expiry tests. -/

abbrev BucketTable := List (List (Key × Entry))

def walkBucket (now limit checked : Nat) :
    List (Key × Entry) → List (Key × Entry) × Nat × Nat
  | [] => ([], checked, 0)
  | (k, e) :: rest =>
    if limit ≤ checked then ((k, e) :: rest, checked, 0)
    else if e.Expired now then (rest, checked, 1)
    else
      let r := walkBucket now limit (checked + 1) rest
      ((k, e) :: r.1, r.2.1, r.2.2 + 1)

def sweepLoop (rng : Nat → Nat) (now limit : Nat) :
    Nat → BucketTable → Nat → Nat → Nat → Nat → BucketTable × Nat × Nat × Nat
  | 0, buckets, _, checked, picks, tested => (buckets, checked, picks, tested)
  | budget + 1, buckets, attempt, checked, picks, tested =>
    if limit ≤ checked then (buckets, checked, picks, tested)
    else
      let i := rng attempt % buckets.length
      let w := walkBucket now limit checked (buckets.getD i [])
      sweepLoop rng now limit budget (buckets.set i w.1) (attempt + 1)
        w.2.1 (picks + 1) (tested + w.2.2)

/-- `Storage::Sweep(max_checks)`: early return on `bucket_count == 0`; else
run the attempt loop with `attempt < max_checks * 2` and `checked <
max_checks`.  Returns the table plus the final `checked`, the number of
bucket picks (loop iterations) and the number of `Expired` tests. -/
def Sweep (rng : Nat → Nat) (now : Nat) (buckets : BucketTable) (maxChecks : Nat) :
    BucketTable × Nat × Nat × Nat :=
  if buckets.length = 0 then (buckets, 0, 0, 0)
  else sweepLoop rng now maxChecks (maxChecks * 2) buckets 0 0 0 0

theorem walkBucket_bounds (now limit : Nat) :
    ∀ (bucket : List (Key × Entry)) (checked : Nat), checked ≤ limit →
      (walkBucket now limit checked bucket).2.1 ≤ limit ∧
      checked ≤ (walkBucket now limit checked bucket).2.1 ∧
      (walkBucket now limit checked bucket).2.2 + checked ≤
        (walkBucket now limit checked bucket).2.1 + 1 := by
  intro bucket
  induction bucket with
  | nil => intro checked h; simp only [walkBucket]; omega
  | cons p rest ih =>
    intro checked h
    obtain ⟨k, e⟩ := p
    simp only [walkBucket]
    by_cases hlim : limit ≤ checked
    · simp only [if_pos hlim]; omega
    · simp only [if_neg hlim]
      by_cases hexp : e.Expired now = true
      · simp only [hexp, if_true]; omega
      · have hexp' : e.Expired now = false := by
          cases hb : e.Expired now
          · rfl
          · exact absurd hb hexp
        simp only [hexp', Bool.false_eq_true, if_false]
        have hih := ih (checked + 1) (by omega)
        omega

theorem sweepLoop_bounds (rng : Nat → Nat) (now limit : Nat) :
    ∀ (budget : Nat) (buckets : BucketTable) (attempt checked picks tested : Nat),
      checked ≤ limit →
      (sweepLoop rng now limit budget buckets attempt checked picks tested).2.1 ≤ limit ∧
      (sweepLoop rng now limit budget buckets attempt checked picks tested).2.2.1 ≤
        picks + budget ∧
      (sweepLoop rng now limit budget buckets attempt checked picks tested).2.2.2 +
          checked + picks ≤
        tested +
          (sweepLoop rng now limit budget buckets attempt checked picks tested).2.1 +
          (sweepLoop rng now limit budget buckets attempt checked picks tested).2.2.1 := by
  intro budget
  induction budget with
  | zero => intro buckets attempt checked picks tested h; simp only [sweepLoop]; omega
  | succ b ih =>
    intro buckets attempt checked picks tested h
    simp only [sweepLoop]
    by_cases hlim : limit ≤ checked
    · simp only [if_pos hlim]; omega
    · simp only [if_neg hlim]
      have hw := walkBucket_bounds now limit
        (buckets.getD (rng attempt % buckets.length) []) checked h
      have hih := ih
        (buckets.set (rng attempt % buckets.length)
          (walkBucket now limit checked
            (buckets.getD (rng attempt % buckets.length) [])).1)
        (attempt + 1)
        (walkBucket now limit checked
          (buckets.getD (rng attempt % buckets.length) [])).2.1
        (picks + 1)
        (tested +
          (walkBucket now limit checked
            (buckets.getD (rng attempt % buckets.length) [])).2.2)
        hw.1
      omega

/-- **C8** — Active-sweep boundedness: for every table state, rng and
max_checks `n`, `Sweep` picks at most `2 * n` buckets, counts at most `n`
entries as checked, evaluates expiry on at most `3 * n` entries in total
(so it examines O(n) entries and terminates), and on an empty table it
returns immediately with nothing done. -/
theorem sweep_bounded (rng : Nat → Nat) (now : Nat) (buckets : BucketTable) (n : Nat) :
    (Sweep rng now buckets n).2.2.1 ≤ 2 * n ∧
    (Sweep rng now buckets n).2.1 ≤ n ∧
    (Sweep rng now buckets n).2.2.2 ≤ 3 * n ∧
    Sweep rng now [] n = ([], 0, 0, 0) := by
  have hnil : Sweep rng now [] n = ([], 0, 0, 0) := by
    simp [Sweep]
  refine ⟨?_, ?_, ?_, hnil⟩ <;>
  · show _ ≤ _
    by_cases h0 : buckets.length = 0
    · simp only [Sweep, if_pos h0]; omega
    · simp only [Sweep, if_neg h0]
      have hb := sweepLoop_bounds rng now n (n * 2) buckets 0 0 0 0 (by omega)
      omega

end Jaldis
